import Mathlib

/-!
Shallow embedding of the KamaCache eviction-policy library
(src/KLruCache.h, src/KLfuCache.h, src/KArcCache.h) and proofs about it.

Conventions used throughout the embedding:
* Every doubly linked list with sentinel head and tail is modelled as a plain
  Lean list of its real (non-sentinel) nodes, head side first.  The head side
  is the eviction side, the tail side is where insertions happen, exactly as
  in the C++ lists.
* Every `std::unordered_map` is modelled as an association list with unique
  keys; `operator[]` assignment is an update in place when the key is present
  and an append otherwise, `erase` removes the unique matching entry.
* C++ `int` fields are `Int`, `size_t` fields are `Nat`.  Integer division is
  only ever evaluated at nonnegative arguments in the verified statements,
  where C++ truncating division and Lean `Int` division agree.
* Keys and values are specialised to `Nat` (and to `String` values for the
  LRU-K wrapper, whose `put` compares a cached value against the empty
  string).
-/

namespace KamaCacheSpec

/-! ## Association-list and list primitives shared by all engines -/

/-- Lookup in an association list (first matching key). -/
def alookup {κ α : Type} [DecidableEq κ] : List (κ × α) → κ → Option α
  | [], _ => none
  | e :: es, k => if e.1 = k then some e.2 else alookup es k

/-- Update in place when the key is present, append otherwise; this is the
effect of assigning through `operator[]` of `std::unordered_map`. -/
def aupsert {κ α : Type} [DecidableEq κ] (m : List (κ × α)) (k : κ) (v : α) :
    List (κ × α) :=
  if (alookup m k).isSome then m.map (fun e => if e.1 = k then (k, v) else e)
  else m ++ [(k, v)]

/-- Erase the first (and, with unique keys, only) entry with the given key;
the effect of `std::unordered_map::erase`. -/
def aerase {κ α : Type} [DecidableEq κ] : List (κ × α) → κ → List (κ × α)
  | [], _ => []
  | e :: es, k => if e.1 = k then es else e :: aerase es k

/-- Apply a function to the entry with the given key, leaving the map
unchanged when the key is absent (writing through a found node). -/
def aupdate {κ α : Type} [DecidableEq κ] (m : List (κ × α)) (k : κ)
    (g : α → α) : List (κ × α) :=
  m.map (fun e => if e.1 = k then (k, g e.2) else e)

/-- Remove the first occurrence of an element from a plain list (unlinking
one node from a doubly linked list). -/
def eraseOne {α : Type} [DecidableEq α] : List α → α → List α
  | [], _ => []
  | a :: l, x => if a = x then l else a :: eraseOne l x

/-! ## KLruCache (src/KLruCache.h, class KLruCache)

The C++ engine keeps a recency list of nodes between two sentinels plus a
key-to-node map.  For this engine every map insertion and removal is paired
with the corresponding list link and unlink, so the pair is modelled as the
single list `entries` of (key, value) pairs, head side (least recent) first;
the map is its key projection. -/

structure KLruCache (V : Type) where
  capacity : Nat
  entries : List (Nat × V)
deriving DecidableEq

namespace KLruCache

/-- Value stored for a key, if any (a `nodeMap_.find` hit). -/
def lookup {V : Type} (c : KLruCache V) (k : Nat) : Option V :=
  alookup c.entries k

/-- KLruCache::put.  Present key: overwrite the value and move the node to
the most recent position.  Absent key: evict the head node when at capacity,
then insert at the tail.  Capacity zero makes put a no-op. -/
def put {V : Type} (c : KLruCache V) (k : Nat) (v : V) : KLruCache V :=
  if c.capacity = 0 then c
  else
    match alookup c.entries k with
    | some _ =>
        { c with entries := aerase c.entries k ++ [(k, v)] }
    | none =>
        let es := if c.entries.length ≥ c.capacity then c.entries.drop 1
                  else c.entries
        { c with entries := es ++ [(k, v)] }

/-- KLruCache::get (both overloads): on a hit move the node to the most
recent position and return its value, on a miss return the default value
(the value-returning overload default-initialises it). -/
def get {V : Type} [Inhabited V] (c : KLruCache V) (k : Nat) :
    Bool × V × KLruCache V :=
  match alookup c.entries k with
  | some v => (true, v, { c with entries := aerase c.entries k ++ [(k, v)] })
  | none => (false, default, c)

/-- KLruCache::remove: unlink and drop the node when present. -/
def remove {V : Type} (c : KLruCache V) (k : Nat) : KLruCache V :=
  { c with entries := aerase c.entries k }

/-- Constructor. -/
def init (V : Type) (capacity : Nat) : KLruCache V :=
  { capacity := capacity, entries := [] }

end KLruCache

/-- Run a sequence of puts and gets, used by the concrete scenarios. -/
inductive LruOp where
  | put (k v : Nat)
  | get (k : Nat)
deriving DecidableEq

def runLru (ops : List LruOp) (c : KLruCache Nat) : KLruCache Nat :=
  ops.foldl
    (fun s op =>
      match op with
      | LruOp.put k v => s.put k v
      | LruOp.get k => (s.get k).2.2) c

/-- C10: scenario S1.  Capacity 3, `put(1,a), put(2,b), put(3,c), get(1),
put(4,d)`: the cache then holds exactly the keys 1, 3 and 4; key 2 was the
one evicted. -/
theorem lru_scenario_basic :
    (runLru
      [LruOp.put 1 10, LruOp.put 2 20, LruOp.put 3 30, LruOp.get 1,
       LruOp.put 4 40] (KLruCache.init Nat 3)).entries.map (fun e => e.1)
        = [3, 1, 4] ∧
      (runLru
        [LruOp.put 1 10, LruOp.put 2 20, LruOp.put 3 30, LruOp.get 1,
         LruOp.put 4 40] (KLruCache.init Nat 3)).lookup 1 = some 10 ∧
      (runLru
        [LruOp.put 1 10, LruOp.put 2 20, LruOp.put 3 30, LruOp.get 1,
         LruOp.put 4 40] (KLruCache.init Nat 3)).lookup 3 = some 30 ∧
      (runLru
        [LruOp.put 1 10, LruOp.put 2 20, LruOp.put 3 30, LruOp.get 1,
         LruOp.put 4 40] (KLruCache.init Nat 3)).lookup 4 = some 40 ∧
      (runLru
        [LruOp.put 1 10, LruOp.put 2 20, LruOp.put 3 30, LruOp.get 1,
         LruOp.put 4 40] (KLruCache.init Nat 3)).lookup 2 = none := by
  decide

/-! ## KLruKCache (src/KLruCache.h, class KLruKCache)

A main LRU cache with `String` values — its `put` compares the result of the
value-returning `get` against the empty string, so the wrapper only compiles
for string-like values — plus a history LRU cache mapping keys to access
counts (`KLruCache<Key, size_t>`). -/

structure KLruKCache where
  k : Nat
  main : KLruCache String
  history : KLruCache Nat
deriving DecidableEq

namespace KLruKCache

/-- Constructor: KLruKCache(capacity, historyCapacity, k). -/
def init (capacity historyCapacity k : Nat) : KLruKCache :=
  { k := k, main := KLruCache.init String capacity,
    history := KLruCache.init Nat historyCapacity }

/-- KLruKCache::get: bump the history counter for the key, then return
whatever the main cache returns (default empty string on a miss). -/
def get (c : KLruKCache) (key : Nat) : String × KLruKCache :=
  let h := c.history.get key
  let history := h.2.2.put key (h.2.1 + 1)
  let m := c.main.get key
  (m.2.1, { c with main := m.2.2, history := history })

/-- KLruKCache::put.  First, when the value-returning main get yields a
non-empty string, overwrite the main entry.  Then bump the history counter;
when the incremented count reaches `k`, drop the history entry and insert
the pair into the main cache. -/
def put (c : KLruKCache) (key : Nat) (v : String) : KLruKCache :=
  let g := c.main.get key
  let main1 := if ¬ g.2.1 = "" then g.2.2.put key v else g.2.2
  let h := (KLruCache.get (c.history) key)
  let cnt := h.2.1 + 1
  let history1 := h.2.2.put key cnt
  if cnt ≥ c.k then
    { c with history := history1.remove key, main := main1.put key v }
  else
    { c with history := history1, main := main1 }

end KLruKCache

/-! Helper lemmas about KLruCache used to settle C9. -/

theorem alookup_append_self {κ α : Type} [DecidableEq κ]
    (m : List (κ × α)) (k : κ) (v : α) (h : alookup m k = none) :
    alookup (m ++ [(k, v)]) k = some v := by
  induction m with
  | nil => simp [alookup]
  | cons e es ih =>
      by_cases hek : e.1 = k
      · simp [alookup, hek] at h
      · simp [alookup, hek] at h ⊢
        exact ih h

theorem alookup_eq_none_of_not_mem {κ α : Type} [DecidableEq κ]
    (m : List (κ × α)) (k : κ) (h : k ∉ m.map (fun e => e.1)) :
    alookup m k = none := by
  induction m with
  | nil => rfl
  | cons e es ih =>
      simp only [List.map_cons, List.mem_cons] at h
      push_neg at h
      simp only [alookup, if_neg (fun he : e.1 = k => h.1 he.symm)]
      exact ih h.2

theorem alookup_aerase_self {κ α : Type} [DecidableEq κ]
    (m : List (κ × α)) (k : κ) (hnd : (m.map (fun e => e.1)).Nodup) :
    alookup (aerase m k) k = none := by
  induction m with
  | nil => simp [aerase, alookup]
  | cons e es ih =>
      simp only [List.map_cons, List.nodup_cons] at hnd
      by_cases hek : e.1 = k
      · simp only [aerase, if_pos hek]
        exact alookup_eq_none_of_not_mem es k (hek ▸ hnd.1)
      · simp only [aerase, if_neg hek, alookup, if_neg hek]
        exact ih hnd.2

theorem alookup_aerase_of_ne {κ α : Type} [DecidableEq κ]
    (m : List (κ × α)) (k j : κ) (hne : j ≠ k) :
    alookup (aerase m k) j = alookup m j := by
  induction m with
  | nil => rfl
  | cons e es ih =>
      by_cases hek : e.1 = k
      · have hej : ¬ e.1 = j := fun h => hne (h ▸ hek)
        simp only [aerase, if_pos hek, alookup, if_neg hej]
      · simp only [aerase, if_neg hek, alookup]
        by_cases hej : e.1 = j
        · simp only [if_pos hej]
        · simp only [if_neg hej]
          exact ih

theorem alookup_append_ne {κ α : Type} [DecidableEq κ]
    (m : List (κ × α)) (k j : κ) (v : α) (hne : j ≠ k) :
    alookup (m ++ [(k, v)]) j = alookup m j := by
  induction m with
  | nil =>
      simp only [List.nil_append, alookup,
        if_neg (fun h : k = j => hne h.symm)]
  | cons e es ih =>
      by_cases hej : e.1 = j
      · simp only [List.cons_append, alookup, if_pos hej]
      · simp only [List.cons_append, alookup, if_neg hej]
        exact ih

theorem aerase_keys_sublist {κ α : Type} [DecidableEq κ]
    (m : List (κ × α)) (k : κ) :
    ((aerase m k).map (fun e => e.1)).Sublist (m.map (fun e => e.1)) := by
  induction m with
  | nil => simp [aerase]
  | cons e es ih =>
      by_cases hek : e.1 = k
      · simp [aerase, hek]
      · simpa [aerase, hek] using ih.cons₂ e.1

theorem aerase_keys_nodup {κ α : Type} [DecidableEq κ]
    (m : List (κ × α)) (k : κ) (hnd : (m.map (fun e => e.1)).Nodup) :
    ((aerase m k).map (fun e => e.1)).Nodup :=
  (aerase_keys_sublist m k).nodup hnd

theorem alookup_none_keys {κ α : Type} [DecidableEq κ]
    (m : List (κ × α)) (k : κ) (h : alookup m k = none) :
    k ∉ m.map (fun e => e.1) := by
  induction m with
  | nil => simp
  | cons e es ih =>
      by_cases hek : e.1 = k
      · simp [alookup, hek] at h
      · simp only [alookup, if_neg hek] at h
        simp only [List.map_cons, List.mem_cons]
        rintro (rfl | hmem)
        · exact hek rfl
        · exact ih h hmem

namespace KLruCache

theorem lru_put_capacity {V : Type} (c : KLruCache V) (k : Nat) (v : V) :
    (c.put k v).capacity = c.capacity := by
  unfold put
  split
  · rfl
  · split <;> rfl

theorem lru_get_capacity {V : Type} [Inhabited V] (c : KLruCache V)
    (k : Nat) : (c.get k).2.2.capacity = c.capacity := by
  unfold get
  split <;> rfl

/-- After a put with positive capacity and duplicate-free keys, looking up
the same key yields the fresh value. -/
theorem lookup_put_self {V : Type} (c : KLruCache V) (k : Nat) (v : V)
    (hcap : c.capacity ≠ 0) (hnd : (c.entries.map (fun e => e.1)).Nodup) :
    (c.put k v).lookup k = some v := by
  unfold put lookup
  rw [if_neg hcap]
  cases hfind : alookup c.entries k with
  | some w =>
      exact alookup_append_self _ k v (alookup_aerase_self c.entries k hnd)
  | none =>
      show alookup ((if _ then _ else _) ++ [(k, v)]) k = some v
      split
      · refine alookup_append_self _ k v
          (alookup_eq_none_of_not_mem _ k ?_)
        have hk := alookup_none_keys c.entries k hfind
        intro hmem
        exact hk (((List.drop_sublist 1 c.entries).map
          (fun e => e.1)).subset hmem)
      · exact alookup_append_self _ k v hfind

theorem get_entries_keys_nodup {V : Type} [Inhabited V] (c : KLruCache V)
    (k : Nat) (hnd : (c.entries.map (fun e => e.1)).Nodup) :
    ((c.get k).2.2.entries.map (fun e => e.1)).Nodup := by
  unfold get
  cases hfind : alookup c.entries k with
  | some v =>
      have hsub := aerase_keys_nodup c.entries k hnd
      have habsent : k ∉ (aerase c.entries k).map (fun e => e.1) :=
        alookup_none_keys _ k (alookup_aerase_self c.entries k hnd)
      show ((aerase c.entries k ++ [(k, v)]).map (fun e => e.1)).Nodup
      rw [List.map_append]
      refine List.Nodup.append hsub (by simp) ?_
      intro x hx hmem
      simp only [List.map_cons, List.map_nil, List.mem_singleton] at hmem
      subst hmem
      exact habsent hx
  | none => exact hnd

/-- A get hit moves the entry but does not change which value the key maps
to (first lookup after the move is the moved pair). -/
theorem lookup_get {V : Type} [Inhabited V] (c : KLruCache V) (k : Nat)
    (hnd : (c.entries.map (fun e => e.1)).Nodup) :
    (c.get k).2.2.lookup k = c.lookup k := by
  unfold get lookup
  cases hfind : alookup c.entries k with
  | some v =>
      exact alookup_append_self _ k v (alookup_aerase_self c.entries k hnd)
  | none => exact hfind

/-- The value-returning get yields the stored value, or the default when
absent. -/
theorem get_value {V : Type} [Inhabited V] (c : KLruCache V) (k : Nat) :
    (c.get k).2.1 = (c.lookup k).getD default := by
  unfold get lookup
  cases alookup c.entries k <;> rfl

theorem remove_lookup_self {V : Type} (c : KLruCache V) (k : Nat)
    (hnd : (c.entries.map (fun e => e.1)).Nodup) :
    (c.remove k).lookup k = none := by
  unfold remove lookup
  exact alookup_aerase_self c.entries k hnd

theorem put_keys_nodup {V : Type} (c : KLruCache V) (k : Nat) (v : V)
    (hnd : (c.entries.map (fun e => e.1)).Nodup) :
    ((c.put k v).entries.map (fun e => e.1)).Nodup := by
  unfold put
  split
  · exact hnd
  · cases hfind : alookup c.entries k with
    | some w =>
        have hsub := aerase_keys_nodup c.entries k hnd
        have habsent : k ∉ (aerase c.entries k).map (fun e => e.1) :=
          alookup_none_keys _ k (alookup_aerase_self c.entries k hnd)
        show ((aerase c.entries k ++ [(k, v)]).map (fun e => e.1)).Nodup
        rw [List.map_append]
        refine List.Nodup.append hsub (by simp) ?_
        intro x hx hmem
        simp only [List.map_cons, List.map_nil, List.mem_singleton] at hmem
        subst hmem
        exact habsent hx
    | none =>
        show (((if _ then _ else _) ++ [(k, v)]).map (fun e => e.1)).Nodup
        have hk := alookup_none_keys c.entries k hfind
        split
        · rw [List.map_append]
          refine List.Nodup.append
            (((List.drop_sublist 1 c.entries).map (fun e => e.1)).nodup hnd)
            (by simp) ?_
          intro x hx hmem
          simp only [List.map_cons, List.map_nil, List.mem_singleton] at hmem
          subst hmem
          exact hk (((List.drop_sublist 1 c.entries).map
            (fun e => e.1)).subset hx)
        · rw [List.map_append]
          refine List.Nodup.append hnd (by simp) ?_
          intro x hx hmem
          simp only [List.map_cons, List.map_nil, List.mem_singleton] at hmem
          subst hmem
          exact hk hx

end KLruCache

/-- C9 counterexample: with main capacity 3, history capacity 3 and K = 2,
after `put(7,""), put(7,"")` the key 7 sits in the main cache with the empty
string as its value; a further `put(7,"x")` does not overwrite it, because
the overwrite test compares the stored value against the empty string. -/
theorem lruk_put_overwrite_ce :
    ((((KLruKCache.init 3 3 2).put 7 "").put 7 "").put 7 "x").main.lookup 7
        = some "" ∧
      ¬ ((((KLruKCache.init 3 3 2).put 7 "").put 7 "").put 7 "x").main.lookup
          7 = some "x" := by
  decide

/-- C9 (amended): for a KLruKCache with positive main and history capacities
and duplicate-free key indexes, `put(k, v)` behaves as claimed provided the
main-cache overwrite is conditioned on the stored value differing from the
empty-string sentinel: a present key with a non-empty value is overwritten
with v; the history counter is incremented (inserted at 1 if absent); and
when the post-increment count reaches K the history entry is removed and
(k, v) is inserted into the main cache. -/
theorem lruk_put_spec (c : KLruKCache) (k : Nat) (v : String)
    (hmain : c.main.capacity ≠ 0) (hhist : c.history.capacity ≠ 0)
    (hndm : (c.main.entries.map (fun e => e.1)).Nodup)
    (hndh : (c.history.entries.map (fun e => e.1)).Nodup) :
    (∀ v0, c.main.lookup k = some v0 → v0 ≠ "" →
        (c.put k v).main.lookup k = some v) ∧
      ((c.history.lookup k).getD 0 + 1 < c.k →
        (c.put k v).history.lookup k
          = some ((c.history.lookup k).getD 0 + 1)) ∧
      (c.k ≤ (c.history.lookup k).getD 0 + 1 →
        (c.put k v).history.lookup k = none ∧
          (c.put k v).main.lookup k = some v) := by
  have hgv : (c.history.get k).2.1 = (c.history.lookup k).getD 0 :=
    KLruCache.get_value c.history k
  have hmv : (c.main.get k).2.1 = (c.main.lookup k).getD default :=
    KLruCache.get_value c.main k
  have hndm1 := KLruCache.get_entries_keys_nodup c.main k hndm
  have hndh1 := KLruCache.get_entries_keys_nodup c.history k hndh
  have hcapm1 : (c.main.get k).2.2.capacity ≠ 0 := by
    rw [KLruCache.lru_get_capacity]; exact hmain
  have hcaph1 : (c.history.get k).2.2.capacity ≠ 0 := by
    rw [KLruCache.lru_get_capacity]; exact hhist
  -- the state of the main cache after the conditional overwrite
  have hmain1 :
      ∀ v0, c.main.lookup k = some v0 → v0 ≠ "" →
        (if ¬ (c.main.get k).2.1 = "" then (c.main.get k).2.2.put k v
         else (c.main.get k).2.2).lookup k = some v := by
    intro v0 h0 hne
    rw [if_pos (by rw [hmv, h0]; exact hne)]
    exact KLruCache.lookup_put_self _ k v hcapm1 hndm1
  have hmain1nodup :
      (((if ¬ (c.main.get k).2.1 = "" then (c.main.get k).2.2.put k v
         else (c.main.get k).2.2).entries.map (fun e => e.1)).Nodup) := by
    split
    · exact KLruCache.put_keys_nodup _ k v hndm1
    · exact hndm1
  have hmain1cap :
      (if ¬ (c.main.get k).2.1 = "" then (c.main.get k).2.2.put k v
       else (c.main.get k).2.2).capacity ≠ 0 := by
    split
    · rw [KLruCache.lru_put_capacity]; exact hcapm1
    · exact hcapm1
  unfold KLruKCache.put
  by_cases hbr : (c.history.get k).2.1 + 1 ≥ c.k
  · simp only [if_pos hbr]
    refine ⟨?_, ?_, ?_⟩
    · intro v0 h0 hne
      exact KLruCache.lookup_put_self _ k v hmain1cap hmain1nodup
    · intro hlt
      rw [hgv] at hbr
      omega
    · intro hge
      refine ⟨?_, ?_⟩
      · exact KLruCache.remove_lookup_self _ k
          (KLruCache.put_keys_nodup _ k _ hndh1)
      · exact KLruCache.lookup_put_self _ k v hmain1cap hmain1nodup
  · simp only [if_neg hbr]
    refine ⟨?_, ?_, ?_⟩
    · intro v0 h0 hne
      exact hmain1 v0 h0 hne
    · intro hlt
      rw [hgv]
      exact KLruCache.lookup_put_self _ k _ hcaph1 hndh1
    · intro hge
      rw [hgv] at hbr
      omega

/-- C9 witness: a cache where key 7 is present in main with value "a" and
has history count 0; put(7, "b") with K = 3 overwrites the main value and
records history count 1. -/
theorem lruk_put_spec_witness :
    (({ k := 3, main := { capacity := 3, entries := [(7, "a")] },
        history := { capacity := 3, entries := [] } } : KLruKCache).put 7
          "b").main.lookup 7 = some "b" ∧
      (({ k := 3, main := { capacity := 3, entries := [(7, "a")] },
          history := { capacity := 3, entries := [] } } : KLruKCache).put 7
            "b").history.lookup 7 = some 1 := by
  have h := lruk_put_spec
    { k := 3, main := { capacity := 3, entries := [(7, "a")] },
      history := { capacity := 3, entries := [] } } 7 "b"
    (by decide) (by decide) (by decide) (by decide)
  exact ⟨h.1 "a" (by decide) (by decide), h.2.1 (by decide)⟩

/-! ## KLfuCache (src/KLfuCache.h)

State: the key index `keyToNode_` is the association list `nodes` mapping a
key to its (value, freq) pair, in insertion order — the iteration order of
the unordered map in `handleOverMaxAverageNum` is modelled as this list
order; the final frequencies and `minFreq_` do not depend on it.  The
frequency lists `freqToFreqList_` are the association list `buckets` mapping
a frequency to the keys of its list, head side first.  A read through
`operator[]` that merely tests `isNull()` materialises an empty list in the
C++ map; that side effect has no observable consequence for lookups and is
not modelled. -/

structure KLfuCache where
  capacity : Nat
  maxAverageNum : Int
  minFreq : Int
  curTotalNum : Int
  curAverageNum : Int
  nodes : List (Nat × Nat × Int)
  buckets : List (Int × List Nat)
deriving DecidableEq

/-- Contents of the frequency list for `f` in a bucket map (empty when the
list is absent). -/
def blookup (bs : List (Int × List Nat)) (f : Int) : List Nat :=
  (alookup bs f).getD []

namespace KLfuCache

/-- Constructor: KLfuCache(capacity, maxAverageNum); minFreq_ starts at
INT8_MAX. -/
def init (capacity : Nat) (maxAverageNum : Int) : KLfuCache :=
  { capacity := capacity, maxAverageNum := maxAverageNum, minFreq := 127,
    curTotalNum := 0, curAverageNum := 0, nodes := [], buckets := [] }

/-- The (value, freq) stored for a key (a `keyToNode_.find` hit). -/
def findNode (c : KLfuCache) (k : Nat) : Option (Nat × Int) :=
  alookup c.nodes k

/-- The keys of the frequency list for `f`, head side first (an absent list
reads as empty). -/
def bucketOf (c : KLfuCache) (f : Int) : List Nat :=
  blookup c.buckets f

/-- KLfuCache::removeFromFreqList: unlink the node from the frequency list
it is linked in.  Each key occurs in exactly one list, so erasing it from
every list is the pointer unlink. -/
def removeFromFreqList (bs : List (Int × List Nat)) (k : Nat) :
    List (Int × List Nat) :=
  bs.map (fun b => (b.1, eraseOne b.2 k))

/-- KLfuCache::addToFreqList: append the key to the list for frequency `f`,
creating that list when absent. -/
def addToFreqList (bs : List (Int × List Nat)) (k : Nat) (f : Int) :
    List (Int × List Nat) :=
  if (alookup bs f).isSome then
    bs.map (fun b => if b.1 = f then (b.1, b.2 ++ [k]) else b)
  else bs ++ [(f, [k])]

/-- Overwrite the frequency recorded for a key in the key index. -/
def setFreq (ns : List (Nat × Nat × Int)) (k : Nat) (f : Int) :
    List (Nat × Nat × Int) :=
  ns.map (fun n => if n.1 = k then (n.1, n.2.1, f) else n)

/-- Overwrite the value recorded for a key in the key index. -/
def setValue (ns : List (Nat × Nat × Int)) (k : Nat) (v : Nat) :
    List (Nat × Nat × Int) :=
  ns.map (fun n => if n.1 = k then (n.1, v, n.2.2) else n)

/-- One iteration of the loop in KLfuCache::handleOverMaxAverageNum: the
frequency of the node for `k` drops by `d`, the node is unlinked and
re-linked into the list of its new frequency, and minFreq_ is lowered to
it when smaller. -/
def agingStep (d : Int) (c : KLfuCache) (k : Nat) : KLfuCache :=
  match alookup c.nodes k with
  | none => c
  | some (_, f) =>
      { c with nodes := setFreq c.nodes k (f - d),
               buckets := addToFreqList (removeFromFreqList c.buckets k) k
                 (f - d),
               minFreq := min c.minFreq (f - d) }

/-- KLfuCache::handleOverMaxAverageNum: every node loses
`maxAverageNum_ / 2` of frequency and is re-bucketed; minFreq_ is updated
along the way. -/
def handleOverMaxAverageNum (c : KLfuCache) : KLfuCache :=
  (c.nodes.map (fun n => n.1)).foldl (agingStep (c.maxAverageNum / 2)) c

/-- KLfuCache::addFreqNum: bump the total access count, recompute the
average over the live nodes, and run the aging pass when the average
exceeds maxAverageNum_. -/
def addFreqNum (c : KLfuCache) : KLfuCache :=
  let total := c.curTotalNum + 1
  let avg := if c.nodes = [] then 0 else total / (c.nodes.length : Int)
  let c1 := { c with curTotalNum := total, curAverageNum := avg }
  if avg > c1.maxAverageNum then handleOverMaxAverageNum c1 else c1

/-- KLfuCache::decreaseFreqNum: subtract an evicted frequency from the
total and recompute the average (no aging trigger here). -/
def decreaseFreqNum (c : KLfuCache) (num : Int) : KLfuCache :=
  let total := c.curTotalNum - num
  let avg := if c.nodes = [] then 0 else total / (c.nodes.length : Int)
  { c with curTotalNum := total, curAverageNum := avg }

/-- KLfuCache::getInternal: move the node one frequency up, advance
minFreq_ when its list emptied, and account the access. -/
def getInternal (c : KLfuCache) (k : Nat) : Nat × KLfuCache :=
  match alookup c.nodes k with
  | none => (0, c)
  | some (v, f) =>
      let c1 := { c with nodes := setFreq c.nodes k (f + 1),
                         buckets := addToFreqList
                           (removeFromFreqList c.buckets k) k (f + 1) }
      let c2 := if f = c1.minFreq ∧ bucketOf c1 f = [] then
                  { c1 with minFreq := c1.minFreq + 1 }
                else c1
      (v, addFreqNum c2)

/-- KLfuCache::kickOut: evict the head-adjacent node of the minFreq_ list.
The C++ dereferences the list blindly; an empty or absent list there is
outside the verified reachable states and is modelled as a no-op. -/
def kickOut (c : KLfuCache) : KLfuCache :=
  match (bucketOf c c.minFreq).head? with
  | none => c
  | some k =>
      match alookup c.nodes k with
      | none => c
      | some (_, f) =>
          let c1 := { c with buckets := removeFromFreqList c.buckets k,
                             nodes := aerase c.nodes k }
          decreaseFreqNum c1 f

/-- KLfuCache::putInternal: evict when full, insert the new node at
frequency 1, account the access, and lower minFreq_ to 1 when above it. -/
def putInternal (c : KLfuCache) (k : Nat) (v : Nat) : KLfuCache :=
  let c1 := if c.nodes.length = c.capacity then kickOut c else c
  let c2 := { c1 with nodes := c1.nodes ++ [(k, v, 1)],
                      buckets := addToFreqList c1.buckets k 1 }
  let c3 := addFreqNum c2
  { c3 with minFreq := min c3.minFreq 1 }

/-- KLfuCache::put. -/
def put (c : KLfuCache) (k : Nat) (v : Nat) : KLfuCache :=
  if c.capacity = 0 then c
  else
    match alookup c.nodes k with
    | some _ => (getInternal { c with nodes := setValue c.nodes k v } k).2
    | none => putInternal c k v

/-- KLfuCache::get (out-parameter form; the value form returns the same
state). -/
def get (c : KLfuCache) (k : Nat) : Bool × Nat × KLfuCache :=
  match alookup c.nodes k with
  | some _ => let r := getInternal c k; (true, r.1, r.2)
  | none => (false, 0, c)

end KLfuCache

/-- Operation alphabet for concrete KLfuCache scenarios. -/
inductive LfuOp where
  | put (k v : Nat)
  | get (k : Nat)
deriving DecidableEq

def runLfu (ops : List LfuOp) (c : KLfuCache) : KLfuCache :=
  ops.foldl
    (fun s op =>
      match op with
      | LfuOp.put k v => s.put k v
      | LfuOp.get k => (s.get k).2.2) c

/-! Basic facts about the primitive list operations of the LFU engine. -/

theorem alookup_mem {κ α : Type} [DecidableEq κ] {m : List (κ × α)} {k : κ}
    {p : α} (h : alookup m k = some p) : (k, p) ∈ m := by
  induction m with
  | nil => exact absurd h (by simp [alookup])
  | cons e es ih =>
      simp only [alookup] at h
      split at h
      · rename_i hek
        obtain rfl : e.2 = p := Option.some.inj h
        rw [← hek]
        simp
      · exact List.mem_cons_of_mem e (ih h)

theorem mem_keys_of_alookup {κ α : Type} [DecidableEq κ] {m : List (κ × α)}
    {k : κ} {p : α} (h : alookup m k = some p) :
    k ∈ m.map (fun e => e.1) := by
  by_contra hmem
  rw [alookup_eq_none_of_not_mem m k hmem] at h
  exact absurd h (by simp)

theorem alookup_isSome_of_mem_keys {κ α : Type} [DecidableEq κ]
    {m : List (κ × α)} {k : κ} (h : k ∈ m.map (fun e => e.1)) :
    (alookup m k).isSome := by
  cases hl : alookup m k with
  | some p => rfl
  | none => exact absurd h (alookup_none_keys m k hl)

theorem alookup_of_mem_nodup {κ α : Type} [DecidableEq κ] {m : List (κ × α)}
    {k : κ} {p : α} (hnd : (m.map (fun e => e.1)).Nodup) (h : (k, p) ∈ m) :
    alookup m k = some p := by
  induction m with
  | nil => exact absurd h (by simp)
  | cons e es ih =>
      simp only [List.map_cons, List.nodup_cons] at hnd
      rcases List.mem_cons.mp h with rfl | hmem
      · simp [alookup]
      · have hek : ¬ e.1 = k := by
          intro hk
          exact hnd.1 (List.mem_map.mpr ⟨(k, p), hmem, hk.symm⟩)
        simp only [alookup, if_neg hek]
        exact ih hnd.2 hmem

/-! eraseOne -/

theorem eraseOne_sublist {α : Type} [DecidableEq α] (l : List α) (x : α) :
    (eraseOne l x).Sublist l := by
  induction l with
  | nil => simp [eraseOne]
  | cons a l ih =>
      by_cases hax : a = x
      · simp [eraseOne, hax]
      · simpa [eraseOne, hax] using ih.cons₂ a

theorem mem_eraseOne_of_ne {α : Type} [DecidableEq α] {l : List α}
    {a x : α} (h : a ≠ x) : a ∈ eraseOne l x ↔ a ∈ l := by
  induction l with
  | nil => simp [eraseOne]
  | cons b l ih =>
      by_cases hbx : b = x
      · subst hbx
        simp only [eraseOne, if_pos rfl, List.mem_cons]
        exact ⟨fun hm => Or.inr hm, fun hm => hm.resolve_left h⟩
      · simp only [eraseOne, if_neg hbx, List.mem_cons, ih]

theorem not_mem_eraseOne_self {α : Type} [DecidableEq α] {l : List α}
    {x : α} (hnd : l.Nodup) : x ∉ eraseOne l x := by
  induction l with
  | nil => simp [eraseOne]
  | cons a l ih =>
      simp only [List.nodup_cons] at hnd
      by_cases hax : a = x
      · subst hax
        simpa [eraseOne] using hnd.1
      · simp only [eraseOne, if_neg hax, List.mem_cons]
        rintro (rfl | hmem)
        · exact hax rfl
        · exact ih hnd.2 hmem

theorem eraseOne_length_of_mem {α : Type} [DecidableEq α] {l : List α}
    {x : α} (h : x ∈ l) : (eraseOne l x).length + 1 = l.length := by
  induction l with
  | nil => exact absurd h (by simp)
  | cons a l ih =>
      by_cases hax : a = x
      · simp [eraseOne, hax]
      · have hmem : x ∈ l := by
          rcases List.mem_cons.mp h with rfl | hm
          · exact absurd rfl hax
          · exact hm
        simp only [eraseOne, if_neg hax, List.length_cons]
        rw [← ih hmem]

/-! aerase length and key membership -/

theorem aerase_length_of_mem {κ α : Type} [DecidableEq κ]
    {m : List (κ × α)} {k : κ} (h : k ∈ m.map (fun e => e.1)) :
    (aerase m k).length + 1 = m.length := by
  induction m with
  | nil => exact absurd h (by simp)
  | cons e es ih =>
      by_cases hek : e.1 = k
      · simp [aerase, hek]
      · have hmem : k ∈ es.map (fun e => e.1) := by
          rcases List.mem_cons.mp h with heq | hm
          · exact absurd heq.symm hek
          · exact hm
        simp only [aerase, if_neg hek, List.length_cons]
        rw [← ih hmem]

/-! setFreq and setValue -/

namespace KLfuCache

theorem setFreq_keys (ns : List (Nat × Nat × Int)) (k : Nat) (f : Int) :
    (setFreq ns k f).map (fun n => n.1) = ns.map (fun n => n.1) := by
  unfold setFreq
  rw [List.map_map]
  refine List.map_congr_left ?_
  intro n _
  by_cases h : n.1 = k <;> simp [h]

theorem alookup_setFreq_self (ns : List (Nat × Nat × Int)) (k : Nat)
    (f : Int) :
    alookup (setFreq ns k f) k = (alookup ns k).map (fun p => (p.1, f)) := by
  induction ns with
  | nil => rfl
  | cons n ns ih =>
      by_cases hnk : n.1 = k
      · simp [setFreq, alookup, hnk]
      · simp only [setFreq, List.map_cons, if_neg hnk, alookup, if_neg hnk]
        exact ih

theorem alookup_setFreq_ne (ns : List (Nat × Nat × Int)) (k : Nat) (f : Int)
    (j : Nat) (hjk : j ≠ k) :
    alookup (setFreq ns k f) j = alookup ns j := by
  induction ns with
  | nil => rfl
  | cons n ns ih =>
      by_cases hnk : n.1 = k
      · have hnj : ¬ n.1 = j := fun h => hjk ((h ▸ hnk : j = k))
        simp only [setFreq, List.map_cons, if_pos hnk, alookup,
          if_neg (fun h : k = j => hjk h.symm), if_neg hnj]
        exact ih
      · simp only [setFreq, List.map_cons, if_neg hnk, alookup]
        by_cases hnj : n.1 = j
        · simp only [if_pos hnj]
        · simp only [if_neg hnj]
          exact ih

theorem setValue_keys (ns : List (Nat × Nat × Int)) (k v : Nat) :
    (setValue ns k v).map (fun n => n.1) = ns.map (fun n => n.1) := by
  unfold setValue
  rw [List.map_map]
  refine List.map_congr_left ?_
  intro n _
  by_cases h : n.1 = k <;> simp [h]

theorem alookup_setValue_self (ns : List (Nat × Nat × Int)) (k v : Nat) :
    alookup (setValue ns k v) k
      = (alookup ns k).map (fun p => (v, p.2)) := by
  induction ns with
  | nil => rfl
  | cons n ns ih =>
      by_cases hnk : n.1 = k
      · simp [setValue, alookup, hnk]
      · simp only [setValue, List.map_cons, if_neg hnk, alookup, if_neg hnk]
        exact ih

theorem alookup_setValue_ne (ns : List (Nat × Nat × Int)) (k v : Nat)
    (j : Nat) (hjk : j ≠ k) :
    alookup (setValue ns k v) j = alookup ns j := by
  induction ns with
  | nil => rfl
  | cons n ns ih =>
      by_cases hnk : n.1 = k
      · have hnj : ¬ n.1 = j := fun h => hjk ((h ▸ hnk : j = k))
        simp only [setValue, List.map_cons, if_pos hnk, alookup,
          if_neg (fun h : k = j => hjk h.symm), if_neg hnj]
        exact ih
      · simp only [setValue, List.map_cons, if_neg hnk, alookup]
        by_cases hnj : n.1 = j
        · simp only [if_pos hnj]
        · simp only [if_neg hnj]
          exact ih

/-! removeFromFreqList and addToFreqList -/

theorem removeFromFreqList_keys (bs : List (Int × List Nat)) (k : Nat) :
    (removeFromFreqList bs k).map (fun b => b.1)
      = bs.map (fun b => b.1) := by
  unfold removeFromFreqList
  rw [List.map_map]
  rfl

theorem alookup_removeFromFreqList (bs : List (Int × List Nat)) (k : Nat)
    (f : Int) :
    alookup (removeFromFreqList bs k) f
      = (alookup bs f).map (fun l => eraseOne l k) := by
  induction bs with
  | nil => rfl
  | cons b bs ih =>
      by_cases hbf : b.1 = f
      · simp [removeFromFreqList, alookup, hbf]
      · simp only [removeFromFreqList, List.map_cons, alookup, if_neg hbf]
        exact ih

theorem blookup_removeFromFreqList (bs : List (Int × List Nat)) (k : Nat)
    (f : Int) :
    blookup (removeFromFreqList bs k) f = eraseOne (blookup bs f) k := by
  unfold blookup
  rw [alookup_removeFromFreqList]
  cases alookup bs f <;> simp [eraseOne]

theorem mem_removeFromFreqList {bs : List (Int × List Nat)}
    {b : Int × List Nat} (k : Nat) (h : b ∈ removeFromFreqList bs k) :
    ∃ l, (b.1, l) ∈ bs ∧ b.2 = eraseOne l k := by
  unfold removeFromFreqList at h
  obtain ⟨b0, hb0, heq⟩ := List.mem_map.mp h
  exact ⟨b0.2, by rw [← heq]; exact hb0, by rw [← heq]⟩

theorem addToFreqList_keys (bs : List (Int × List Nat)) (k : Nat) (f : Int) :
    (addToFreqList bs k f).map (fun b => b.1) = bs.map (fun b => b.1) ∨
      ((addToFreqList bs k f).map (fun b => b.1)
          = bs.map (fun b => b.1) ++ [f] ∧ alookup bs f = none) := by
  unfold addToFreqList
  split
  · left
    rw [List.map_map]
    refine List.map_congr_left ?_
    intro b _
    by_cases hbf : b.1 = f <;> simp [hbf]
  · right
    refine ⟨by simp, ?_⟩
    rename_i hnone
    cases h : alookup bs f with
    | some l => rw [h] at hnone; exact absurd rfl hnone
    | none => rfl

theorem alookup_addToFreqList_self (bs : List (Int × List Nat)) (k : Nat)
    (f : Int) :
    alookup (addToFreqList bs k f) f = some (blookup bs f ++ [k]) := by
  unfold addToFreqList blookup
  split
  · rename_i hsome
    cases hl : alookup bs f with
    | none => rw [hl] at hsome; exact absurd hsome (by simp)
    | some l =>
        simp only [Option.getD_some]
        clear hsome
        induction bs with
        | nil => exact absurd hl (by simp [alookup])
        | cons b bs ih =>
            by_cases hbf : b.1 = f
            · simp only [alookup, if_pos hbf] at hl
              obtain rfl := Option.some.inj hl
              simp [alookup, hbf]
            · simp only [alookup, if_neg hbf] at hl
              simp only [List.map_cons, if_neg hbf, alookup, if_neg hbf]
              exact ih hl
  · rename_i hnone
    cases hl : alookup bs f with
    | some l => rw [hl] at hnone; exact absurd (by simp) hnone
    | none =>
        simp only [Option.getD_none, List.nil_append]
        refine alookup_append_self bs f [k] hl

theorem alookup_addToFreqList_ne (bs : List (Int × List Nat)) (k : Nat)
    (f g : Int) (hgf : g ≠ f) :
    alookup (addToFreqList bs k f) g = alookup bs g := by
  unfold addToFreqList
  split
  · rename_i hsome
    clear hsome
    induction bs with
    | nil => rfl
    | cons b bs ih =>
        by_cases hbf : b.1 = f
        · have hbg : ¬ b.1 = g := fun h => hgf ((h ▸ hbf : g = f))
          simp only [List.map_cons, if_pos hbf, alookup,
            if_neg (fun h : f = g => hgf h.symm), if_neg hbg]
          exact ih
        · simp only [List.map_cons, if_neg hbf, alookup]
          by_cases hbg : b.1 = g
          · simp only [if_pos hbg]
          · simp only [if_neg hbg]
            exact ih
  · exact alookup_append_ne bs f g [k] hgf

theorem blookup_addToFreqList_self (bs : List (Int × List Nat)) (k : Nat)
    (f : Int) :
    blookup (addToFreqList bs k f) f = blookup bs f ++ [k] := by
  unfold blookup
  rw [alookup_addToFreqList_self]
  rfl

theorem blookup_addToFreqList_ne (bs : List (Int × List Nat)) (k : Nat)
    (f g : Int) (hgf : g ≠ f) :
    blookup (addToFreqList bs k f) g = blookup bs g := by
  unfold blookup
  rw [alookup_addToFreqList_ne bs k f g hgf]

theorem mem_addToFreqList {bs : List (Int × List Nat)}
    {b : Int × List Nat} {k : Nat} {f : Int}
    (h : b ∈ addToFreqList bs k f) :
    (b ∈ bs ∧ ¬ b.1 = f) ∨ (∃ l, (f, l) ∈ bs ∧ b = (f, l ++ [k])) ∨
      b = (f, [k]) := by
  unfold addToFreqList at h
  split at h
  · obtain ⟨b0, hb0, heq⟩ := List.mem_map.mp h
    by_cases hbf : b0.1 = f
    · refine Or.inr (Or.inl ⟨b0.2, ?_, ?_⟩)
      · rw [← hbf]; exact hb0
      · rw [← heq]; simp [hbf]
    · left
      rw [← heq]
      simp only [if_neg hbf]
      exact ⟨hb0, hbf⟩
  · rcases List.mem_append.mp h with hmem | hmem
    · rcases hl : alookup bs f with _ | l
      · by_cases hbf : b.1 = f
        · exfalso
          rename_i hnone
          -- the map has no entry for f, yet b has key f and is in bs
          have := alookup_isSome_of_mem_keys
            (List.mem_map.mpr ⟨b, hmem, hbf⟩)
          rw [hl] at this
          exact absurd this (by simp)
        · exact Or.inl ⟨hmem, hbf⟩
      · rename_i hnone
        rw [hl] at hnone
        exact absurd (by simp) hnone
    · right; right
      simpa using hmem

/-! Well-formedness of an LFU state and the invariant I4. -/

/-- Structural well-formedness: unique node keys, unique bucket
frequencies, duplicate-free frequency lists, and both directions of the
consistency between the key index and the frequency lists. -/
def WF (c : KLfuCache) : Prop :=
  (c.nodes.map (fun n => n.1)).Nodup ∧
  (c.buckets.map (fun b => b.1)).Nodup ∧
  (∀ b ∈ c.buckets, b.2.Nodup) ∧
  (∀ n ∈ c.nodes, n.1 ∈ c.bucketOf n.2.2) ∧
  (∀ b ∈ c.buckets, ∀ k ∈ b.2, ∃ n ∈ c.nodes, n.1 = k ∧ n.2.2 = b.1)

instance (c : KLfuCache) : Decidable (WF c) := by
  unfold WF
  infer_instance

/-- Invariant I4, minFreq side: minFreq_ is the least frequency among the
live nodes. -/
def I4min (c : KLfuCache) : Prop :=
  (∀ n ∈ c.nodes, c.minFreq ≤ n.2.2) ∧ (∃ n ∈ c.nodes, n.2.2 = c.minFreq)

instance (c : KLfuCache) : Decidable (I4min c) := by
  unfold I4min
  infer_instance

theorem WF.bucketOf_nodup {c : KLfuCache} (hwf : WF c) (f : Int) :
    (c.bucketOf f).Nodup := by
  show (blookup c.buckets f).Nodup
  unfold blookup
  cases hl : alookup c.buckets f with
  | none => simp
  | some l =>
      simp only [Option.getD_some]
      exact hwf.2.2.1 (f, l) (alookup_mem hl)

theorem WF.bucketOf_sound {c : KLfuCache} (hwf : WF c) (f : Int) (k : Nat)
    (hk : k ∈ c.bucketOf f) : ∃ v, (k, v, f) ∈ c.nodes := by
  revert hk
  show k ∈ blookup c.buckets f → _
  unfold blookup
  cases hl : alookup c.buckets f with
  | none => simp
  | some l =>
      intro hk
      obtain ⟨n, hn, h1, h2⟩ := hwf.2.2.2.2 (f, l) (alookup_mem hl) k hk
      obtain ⟨a, b, fz⟩ := n
      simp only at h1 h2
      subst h1
      subst h2
      exact ⟨b, hn⟩

/-- A key occurs in the frequency list of its own frequency only. -/
theorem WF.bucketOf_unique {c : KLfuCache} (hwf : WF c) {f g : Int}
    {k : Nat} (hf : k ∈ c.bucketOf f) (hg : k ∈ c.bucketOf g) : f = g := by
  obtain ⟨v, hv⟩ := hwf.bucketOf_sound f k hf
  obtain ⟨w, hw⟩ := hwf.bucketOf_sound g k hg
  have h1 := alookup_of_mem_nodup hwf.1 hv
  have h2 := alookup_of_mem_nodup hwf.1 hw
  rw [h1] at h2
  exact congrArg (fun p => p.2) (Option.some.inj h2)

/-- Moving the node of a live key to an arbitrary frequency `g` — the common
core of getInternal, of one aging iteration, and of nothing else — keeps the
state well formed and has the expected effect on lookups and lists.  The
minFreq field plays no role in well-formedness. -/
theorem moveNode_spec (c : KLfuCache) (k v : Nat) (f g : Int) (mf : Int)
    (hwf : WF c) (hk : alookup c.nodes k = some (v, f)) :
    let c1 : KLfuCache :=
      { c with nodes := KLfuCache.setFreq c.nodes k g,
               buckets := KLfuCache.addToFreqList
                 (KLfuCache.removeFromFreqList c.buckets k) k g,
               minFreq := mf }
    WF c1 ∧
      alookup c1.nodes k = some (v, g) ∧
      (∀ j, j ≠ k → alookup c1.nodes j = alookup c.nodes j) ∧
      c1.nodes.map (fun n => n.1) = c.nodes.map (fun n => n.1) ∧
      (∀ fq, k ∈ c1.bucketOf fq ↔ fq = g) ∧
      (∀ j, j ≠ k → ∀ fq, (j ∈ c1.bucketOf fq ↔ j ∈ c.bucketOf fq)) := by
  intro c1
  have hkeys : c1.nodes.map (fun n => n.1) = c.nodes.map (fun n => n.1) :=
    KLfuCache.setFreq_keys c.nodes k g
  have hlookk : alookup c1.nodes k = some (v, g) := by
    show alookup (KLfuCache.setFreq c.nodes k g) k = some (v, g)
    rw [KLfuCache.alookup_setFreq_self, hk]
    rfl
  have hlookj : ∀ j, j ≠ k → alookup c1.nodes j = alookup c.nodes j :=
    fun j hj => KLfuCache.alookup_setFreq_ne c.nodes k g j hj
  -- membership of k in the new frequency lists
  have hbk : ∀ fq, k ∈ c1.bucketOf fq ↔ fq = g := by
    intro fq
    show k ∈ blookup c1.buckets fq ↔ fq = g
    by_cases hfg : fq = g
    · subst hfg
      show k ∈ blookup (KLfuCache.addToFreqList _ k fq) fq ↔ _
      rw [KLfuCache.blookup_addToFreqList_self]
      simp
    · show k ∈ blookup (KLfuCache.addToFreqList _ k g) fq ↔ _
      rw [KLfuCache.blookup_addToFreqList_ne _ k g fq hfg,
        KLfuCache.blookup_removeFromFreqList]
      simp only [iff_false, hfg]
      exact not_mem_eraseOne_self (hwf.bucketOf_nodup fq)
  have hbj : ∀ j, j ≠ k → ∀ fq,
      (j ∈ c1.bucketOf fq ↔ j ∈ c.bucketOf fq) := by
    intro j hj fq
    show j ∈ blookup c1.buckets fq ↔ j ∈ blookup c.buckets fq
    by_cases hfg : fq = g
    · subst hfg
      show j ∈ blookup (KLfuCache.addToFreqList _ k fq) fq ↔ _
      rw [KLfuCache.blookup_addToFreqList_self,
        KLfuCache.blookup_removeFromFreqList]
      simp only [List.mem_append, List.mem_singleton]
      constructor
      · rintro (hm | rfl)
        · exact (mem_eraseOne_of_ne hj).mp hm
        · exact absurd rfl hj
      · intro hm
        exact Or.inl ((mem_eraseOne_of_ne hj).mpr hm)
    · show j ∈ blookup (KLfuCache.addToFreqList _ k g) fq ↔ _
      rw [KLfuCache.blookup_addToFreqList_ne _ k g fq hfg,
        KLfuCache.blookup_removeFromFreqList]
      exact mem_eraseOne_of_ne hj
  refine ⟨?_, hlookk, hlookj, hkeys, hbk, hbj⟩
  -- well-formedness of the moved state
  have hnodesnd : (c1.nodes.map (fun n => n.1)).Nodup := by
    rw [hkeys]; exact hwf.1
  have hbkeys : (c1.buckets.map (fun b => b.1)).Nodup := by
    show ((KLfuCache.addToFreqList _ k g).map (fun b => b.1)).Nodup
    rcases KLfuCache.addToFreqList_keys
        (KLfuCache.removeFromFreqList c.buckets k) k g with heq | ⟨heq, habs⟩
    · rw [heq, KLfuCache.removeFromFreqList_keys]
      exact hwf.2.1
    · rw [heq, KLfuCache.removeFromFreqList_keys]
      refine List.Nodup.append hwf.2.1 (by simp) ?_
      intro x hx hmem
      rw [List.mem_singleton] at hmem
      subst hmem
      have := alookup_isSome_of_mem_keys
        (m := KLfuCache.removeFromFreqList c.buckets k)
        (by rw [KLfuCache.removeFromFreqList_keys]; exact hx)
      rw [habs] at this
      exact absurd this (by simp)
  have hblist : ∀ b ∈ c1.buckets, b.2.Nodup := by
    intro b hb
    rcases KLfuCache.mem_addToFreqList hb with ⟨hmem, _⟩ | h | h
    · obtain ⟨l, hl, hb2⟩ := KLfuCache.mem_removeFromFreqList k hmem
      rw [hb2]
      exact (eraseOne_sublist l k).nodup (hwf.2.2.1 (b.1, l) hl)
    · obtain ⟨l, hl, rfl⟩ := h
      obtain ⟨l0, hl0, hb2⟩ := KLfuCache.mem_removeFromFreqList k hl
      simp only at hb2 ⊢
      subst hb2
      have hnd0 := hwf.2.2.1 (g, l0) hl0
      refine List.Nodup.append ((eraseOne_sublist l0 k).nodup hnd0)
        (by simp) ?_
      intro x hx hmem
      rw [List.mem_singleton] at hmem
      subst hmem
      exact not_mem_eraseOne_self hnd0 hx
    · rw [h]
      simp
  have hnode2bucket : ∀ n ∈ c1.nodes, n.1 ∈ c1.bucketOf n.2.2 := by
    intro n hn
    show n.1 ∈ blookup c1.buckets n.2.2
    obtain ⟨n0, hn0, heq⟩ := List.mem_map.mp hn
    by_cases hn0k : n0.1 = k
    · -- the moved node itself sits in the list for its new frequency g
      have hneq : n = (n0.1, n0.2.1, g) := by rw [← heq]; simp [hn0k]
      rw [hneq]
      show n0.1 ∈ blookup c1.buckets g
      rw [hn0k]
      exact (hbk g).mpr rfl
    · have hne : n = n0 := by rw [← heq]; simp [hn0k]
      subst hne
      have horig := hwf.2.2.2.1 n hn0
      exact ((hbj n.1 hn0k n.2.2).mpr horig)
  -- the old-state consistency in its unpacked form
  have hcon5 : ∀ (fq : Int) (l : List Nat), (fq, l) ∈ c.buckets →
      ∀ j ∈ l, ∃ w, (j, w, fq) ∈ c.nodes := by
    intro fq l hl j hjl
    obtain ⟨n, hn, h1, h2⟩ := hwf.2.2.2.2 (fq, l) hl j hjl
    obtain ⟨a, b2, fz⟩ := n
    simp only at h1 h2
    subst h1
    subst h2
    exact ⟨b2, hn⟩
  have hbucket2node : ∀ b ∈ c1.buckets, ∀ j ∈ b.2,
      ∃ w, (j, w, b.1) ∈ c1.nodes := by
    intro b hb j hj
    have hstep : ∀ j, j ≠ k → (∃ w, (j, w, b.1) ∈ c.nodes) →
        ∃ w, (j, w, b.1) ∈ c1.nodes := by
      intro i hik hex
      obtain ⟨w, hw⟩ := hex
      refine ⟨w, ?_⟩
      have := alookup_of_mem_nodup hwf.1 hw
      have h2 : alookup c1.nodes i = some (w, b.1) := by
        rw [hlookj i hik]; exact this
      exact alookup_mem h2
    rcases KLfuCache.mem_addToFreqList hb with ⟨hmem, hbf⟩ | h | h
    · obtain ⟨l, hl, hb2⟩ := KLfuCache.mem_removeFromFreqList k hmem
      have hjl : j ∈ l := (eraseOne_sublist l k).subset (hb2 ▸ hj)
      have hjk : j ≠ k := by
        intro hjk
        subst hjk
        exact not_mem_eraseOne_self (hwf.2.2.1 (b.1, l) hl) (hb2 ▸ hj)
      exact hstep j hjk (hcon5 b.1 l hl j hjl)
    · obtain ⟨l, hl, rfl⟩ := h
      obtain ⟨l0, hl0, hb2⟩ := KLfuCache.mem_removeFromFreqList k hl
      simp only at hb2 hj
      rcases List.mem_append.mp hj with hj1 | hj1
      · rw [hb2] at hj1
        have hjl : j ∈ l0 := (eraseOne_sublist l0 k).subset hj1
        have hjk : j ≠ k := by
          intro hjk
          subst hjk
          exact not_mem_eraseOne_self (hwf.2.2.1 (g, l0) hl0) hj1
        exact hstep j hjk (hcon5 g l0 hl0 j hjl)
      · rw [List.mem_singleton] at hj1
        subst hj1
        exact ⟨v, alookup_mem hlookk⟩
    · rw [h] at hj ⊢
      simp only [List.mem_singleton] at hj
      subst hj
      exact ⟨v, alookup_mem hlookk⟩
  refine ⟨hnodesnd, hbkeys, hblist, hnode2bucket, ?_⟩
  intro b hb j hj
  obtain ⟨w, hw⟩ := hbucket2node b hb j hj
  exact ⟨(j, w, b.1), hw, rfl, rfl⟩

/-- One aging iteration never touches the counters, the capacity, the
threshold, or the key set. -/
theorem agingStep_frame (d : Int) (c : KLfuCache) (k : Nat) :
    (agingStep d c k).capacity = c.capacity ∧
      (agingStep d c k).maxAverageNum = c.maxAverageNum ∧
      (agingStep d c k).curTotalNum = c.curTotalNum ∧
      (agingStep d c k).curAverageNum = c.curAverageNum ∧
      (agingStep d c k).nodes.map (fun n => n.1)
        = c.nodes.map (fun n => n.1) := by
  unfold agingStep
  cases h : alookup c.nodes k with
  | none => exact ⟨rfl, rfl, rfl, rfl, rfl⟩
  | some p => exact ⟨rfl, rfl, rfl, rfl, setFreq_keys c.nodes k (p.2 - d)⟩

/-- Full description of one aging iteration on a live key. -/
theorem agingStep_spec (d : Int) (c : KLfuCache) (k v : Nat) (f : Int)
    (hwf : WF c) (hk : alookup c.nodes k = some (v, f)) :
    WF (agingStep d c k) ∧
      alookup (agingStep d c k).nodes k = some (v, f - d) ∧
      (∀ j, j ≠ k →
        alookup (agingStep d c k).nodes j = alookup c.nodes j) ∧
      (agingStep d c k).nodes.map (fun n => n.1)
        = c.nodes.map (fun n => n.1) ∧
      (∀ fq, k ∈ (agingStep d c k).bucketOf fq ↔ fq = f - d) ∧
      (∀ j, j ≠ k → ∀ fq,
        (j ∈ (agingStep d c k).bucketOf fq ↔ j ∈ c.bucketOf fq)) ∧
      (agingStep d c k).minFreq = min c.minFreq (f - d) := by
  have hred : agingStep d c k =
      { c with nodes := setFreq c.nodes k (f - d),
               buckets := addToFreqList (removeFromFreqList c.buckets k) k
                 (f - d),
               minFreq := min c.minFreq (f - d) } := by
    unfold agingStep
    rw [hk]
  rw [hred]
  have h := moveNode_spec c k v f (f - d) (min c.minFreq (f - d)) hwf hk
  exact ⟨h.1, h.2.1, h.2.2.1, h.2.2.2.1, h.2.2.2.2.1, h.2.2.2.2.2, rfl⟩

theorem foldl_min_congr (l : List Nat) (g1 g2 : Nat → Int)
    (h : ∀ j ∈ l, g1 j = g2 j) :
    ∀ a : Int, l.foldl (fun m j => min m (g1 j)) a
      = l.foldl (fun m j => min m (g2 j)) a := by
  induction l with
  | nil => intro a; rfl
  | cons x l ih =>
      intro a
      simp only [List.foldl_cons]
      rw [h x (List.mem_cons_self x l)]
      exact ih (fun j hj => h j (List.mem_cons_of_mem x hj)) _

theorem foldl_min_le (l : List Nat) (g : Nat → Int) :
    ∀ a : Int, l.foldl (fun m j => min m (g j)) a ≤ a ∧
      ∀ j ∈ l, l.foldl (fun m j => min m (g j)) a ≤ g j := by
  induction l with
  | nil =>
      intro a
      exact ⟨le_refl a, by simp⟩
  | cons x l ih =>
      intro a
      simp only [List.foldl_cons]
      refine ⟨le_trans (ih (min a (g x))).1 (min_le_left a (g x)), ?_⟩
      intro j hj
      rcases List.mem_cons.mp hj with rfl | hj
      · exact le_trans (ih (min a (g j))).1 (min_le_right a (g j))
      · exact (ih (min a (g x))).2 j hj

theorem foldl_min_cases (l : List Nat) (g : Nat → Int) :
    ∀ a : Int, l.foldl (fun m j => min m (g j)) a = a ∨
      ∃ j ∈ l, l.foldl (fun m j => min m (g j)) a = g j := by
  induction l with
  | nil => intro a; exact Or.inl rfl
  | cons x l ih =>
      intro a
      simp only [List.foldl_cons]
      rcases ih (min a (g x)) with h | ⟨j, hj, h⟩
      · rcases min_cases a (g x) with ⟨hm, _⟩ | ⟨hm, _⟩
        · exact Or.inl (by rw [h, hm])
        · exact Or.inr ⟨x, List.mem_cons_self x l, by rw [h, hm]⟩
      · exact Or.inr ⟨j, List.mem_cons_of_mem x hj, h⟩

/-- The loop of handleOverMaxAverageNum, specified over any processing
order of the live keys. -/
theorem aging_fold (d : Int) :
    ∀ (todo : List Nat) (c : KLfuCache),
      todo.Nodup →
      (∀ k ∈ todo, (alookup c.nodes k).isSome) →
      WF c →
      WF (todo.foldl (agingStep d) c) ∧
        (todo.foldl (agingStep d) c).nodes.map (fun n => n.1)
          = c.nodes.map (fun n => n.1) ∧
        (∀ k, k ∉ todo →
          alookup (todo.foldl (agingStep d) c).nodes k
            = alookup c.nodes k) ∧
        (∀ k ∈ todo, alookup (todo.foldl (agingStep d) c).nodes k
          = (alookup c.nodes k).map (fun p => (p.1, p.2 - d))) ∧
        (∀ k fq, k ∉ todo →
          (k ∈ (todo.foldl (agingStep d) c).bucketOf fq ↔
            k ∈ c.bucketOf fq)) ∧
        (∀ k ∈ todo, ∀ fq,
          (k ∈ (todo.foldl (agingStep d) c).bucketOf fq ↔
            ∃ p, alookup c.nodes k = some p ∧ fq = p.2 - d)) ∧
        (todo.foldl (agingStep d) c).minFreq
          = todo.foldl (fun m j => min m
              (((alookup c.nodes j).map (fun p => p.2 - d)).getD 0))
              c.minFreq := by
  intro todo
  induction todo with
  | nil =>
      intro c _ _ hwf
      exact ⟨hwf, rfl, fun k _ => rfl, by simp, fun k fq _ => Iff.rfl,
        by simp, rfl⟩
  | cons k rest ih =>
      intro c hnd hlive hwf
      obtain ⟨p, hkp⟩ := Option.isSome_iff_exists.mp
        (hlive k (List.mem_cons_self k rest))
      obtain ⟨v, f⟩ := p
      have hstep := agingStep_spec d c k v f hwf hkp
      have hndc := List.nodup_cons.mp hnd
      have hliver : ∀ j ∈ rest, (alookup (agingStep d c k).nodes j).isSome :=
        by
        intro j hj
        have hjk : j ≠ k := fun h => hndc.1 (h ▸ hj)
        rw [hstep.2.2.1 j hjk]
        exact hlive j (List.mem_cons_of_mem k hj)
      have hih := ih (agingStep d c k) hndc.2 hliver hstep.1
      simp only [List.foldl_cons]
      refine ⟨hih.1, hih.2.1.trans hstep.2.2.2.1, ?_, ?_, ?_, ?_, ?_⟩
      · -- lookups of untouched keys
        intro j hj
        have hjk : j ≠ k := fun h => hj (h ▸ List.mem_cons_self k rest)
        have hjr : j ∉ rest := fun h => hj (List.mem_cons_of_mem k h)
        rw [hih.2.2.1 j hjr, hstep.2.2.1 j hjk]
      · -- lookups of processed keys
        intro j hj
        rcases List.mem_cons.mp hj with rfl | hjr
        · rw [hih.2.2.1 j hndc.1, hstep.2.1, hkp]
          rfl
        · have hjk : j ≠ k := fun h => hndc.1 (h ▸ hjr)
          rw [hih.2.2.2.1 j hjr, hstep.2.2.1 j hjk]
      · -- frequency-list membership of untouched keys
        intro j fq hj
        have hjk : j ≠ k := fun h => hj (h ▸ List.mem_cons_self k rest)
        have hjr : j ∉ rest := fun h => hj (List.mem_cons_of_mem k h)
        rw [hih.2.2.2.2.1 j fq hjr, hstep.2.2.2.2.2.1 j hjk fq]
      · -- frequency-list membership of processed keys
        intro j hj fq
        rcases List.mem_cons.mp hj with rfl | hjr
        · rw [hih.2.2.2.2.1 j fq hndc.1, hstep.2.2.2.2.1 fq]
          constructor
          · intro h
            exact ⟨(v, f), hkp, h⟩
          · rintro ⟨q, hq, rfl⟩
            rw [hkp] at hq
            obtain rfl := Option.some.inj hq
            rfl
        · have hjk : j ≠ k := fun h => hndc.1 (h ▸ hjr)
          rw [hih.2.2.2.2.2.1 j hjr fq]
          constructor
          · rintro ⟨q, hq, rfl⟩
            rw [hstep.2.2.1 j hjk] at hq
            exact ⟨q, hq, rfl⟩
          · rintro ⟨q, hq, rfl⟩
            refine ⟨q, ?_, rfl⟩
            rw [hstep.2.2.1 j hjk]
            exact hq
      · -- the resulting minFreq
        rw [hih.2.2.2.2.2.2]
        have hgk : ((alookup c.nodes k).map
            (fun p => p.2 - d)).getD 0 = f - d := by
          rw [hkp]; rfl
        rw [foldl_min_congr rest _ (fun j =>
            ((alookup c.nodes j).map (fun p => p.2 - d)).getD 0) ?hcong,
          hstep.2.2.2.2.2.2, ← hgk]
        case hcong =>
          intro j hj
          have hjk : j ≠ k := fun h => hndc.1 (h ▸ hj)
          rw [hstep.2.2.1 j hjk]

/-- Well-formedness only looks at the key index and the frequency lists. -/
theorem WF_congr {c c2 : KLfuCache} (h1 : c2.nodes = c.nodes)
    (h2 : c2.buckets = c.buckets) (hwf : WF c) : WF c2 := by
  unfold WF bucketOf blookup at hwf ⊢
  rw [h1, h2]
  exact hwf

/-- The whole aging loop never touches the counters, the capacity, the
threshold, or the key set. -/
theorem foldl_agingStep_frame (d : Int) :
    ∀ (l : List Nat) (c : KLfuCache),
      (l.foldl (agingStep d) c).capacity = c.capacity ∧
        (l.foldl (agingStep d) c).maxAverageNum = c.maxAverageNum ∧
        (l.foldl (agingStep d) c).curTotalNum = c.curTotalNum ∧
        (l.foldl (agingStep d) c).curAverageNum = c.curAverageNum ∧
        (l.foldl (agingStep d) c).nodes.map (fun n => n.1)
          = c.nodes.map (fun n => n.1) := by
  intro l
  induction l with
  | nil => intro c; exact ⟨rfl, rfl, rfl, rfl, rfl⟩
  | cons k rest ih =>
      intro c
      simp only [List.foldl_cons]
      have h1 := agingStep_frame d c k
      have h2 := ih (agingStep d c k)
      exact ⟨h2.1.trans h1.1, h2.2.1.trans h1.2.1, h2.2.2.1.trans h1.2.2.1,
        h2.2.2.2.1.trans h1.2.2.2.1, h2.2.2.2.2.trans h1.2.2.2.2⟩

/-- When the recomputed average exceeds the threshold, addFreqNum runs the
aging pass on the state with the bumped counters. -/
theorem addFreqNum_triggers (s : KLfuCache) (hne : ¬ s.nodes = [])
    (htrig : (s.curTotalNum + 1) / (s.nodes.length : Int)
      > s.maxAverageNum) :
    addFreqNum s = handleOverMaxAverageNum
      { s with curTotalNum := s.curTotalNum + 1,
               curAverageNum :=
                 (s.curTotalNum + 1) / (s.nodes.length : Int) } := by
  unfold addFreqNum
  simp only []
  rw [if_neg hne, if_pos]
  exact htrig

end KLfuCache

/-- C4: when an access has pushed the current average frequency above
maxAverageNum and the aging pass runs, every live node keeps its key and
value and loses exactly `maxAverageNum / 2` (flooring division) of
frequency; the relative ordering of node frequencies is preserved; and
afterwards every node sits in the frequency list of its own frequency,
every frequency-list member is a live node of that frequency, and minFreq_
is the least frequency of a live node, with some node attaining it
(invariant I4). -/
theorem lfu_aging_spec (c : KLfuCache)
    (hwf : KLfuCache.WF c) (hmin : KLfuCache.I4min c)
    (_hne : c.nodes ≠ []) (hmax : 2 ≤ c.maxAverageNum)
    (_htrig : c.curAverageNum > c.maxAverageNum) :
    (∀ k v f, (k, v, f) ∈ c.nodes → (k, v, f - c.maxAverageNum / 2)
      ∈ (KLfuCache.handleOverMaxAverageNum c).nodes) ∧
      (KLfuCache.handleOverMaxAverageNum c).nodes.map (fun n => n.1)
        = c.nodes.map (fun n => n.1) ∧
      (∀ k1 k2 p1 p2 q1 q2, alookup c.nodes k1 = some p1 →
        alookup c.nodes k2 = some p2 →
        alookup (KLfuCache.handleOverMaxAverageNum c).nodes k1 = some q1 →
        alookup (KLfuCache.handleOverMaxAverageNum c).nodes k2 = some q2 →
        (p1.2 ≤ p2.2 ↔ q1.2 ≤ q2.2)) ∧
      (∀ n ∈ (KLfuCache.handleOverMaxAverageNum c).nodes,
        n.1 ∈ (KLfuCache.handleOverMaxAverageNum c).bucketOf n.2.2) ∧
      (∀ b ∈ (KLfuCache.handleOverMaxAverageNum c).buckets, ∀ k ∈ b.2,
        ∃ n ∈ (KLfuCache.handleOverMaxAverageNum c).nodes,
          n.1 = k ∧ n.2.2 = b.1) ∧
      KLfuCache.I4min (KLfuCache.handleOverMaxAverageNum c) := by
  have hd : 1 ≤ c.maxAverageNum / 2 := by
    have h22 : (2 : Int) / 2 ≤ c.maxAverageNum / 2 :=
      Int.ediv_le_ediv (by norm_num) hmax
    norm_num at h22
    exact h22
  have hfold := KLfuCache.aging_fold (c.maxAverageNum / 2)
    (c.nodes.map (fun n => n.1)) c hwf.1
    (fun k hk => alookup_isSome_of_mem_keys hk) hwf
  have hrr : KLfuCache.handleOverMaxAverageNum c
      = (c.nodes.map (fun n => n.1)).foldl
          (KLfuCache.agingStep (c.maxAverageNum / 2)) c := rfl
  rw [hrr]
  refine ⟨?_, hfold.2.1, ?_, hfold.1.2.2.2.1, hfold.1.2.2.2.2, ?_, ?_⟩
  · -- every node loses exactly d of frequency
    intro k v f hkm
    have hlk : alookup c.nodes k = some (v, f) :=
      alookup_of_mem_nodup hwf.1 hkm
    have hkk : k ∈ c.nodes.map (fun n => n.1) := mem_keys_of_alookup hlk
    have := hfold.2.2.2.1 k hkk
    rw [hlk] at this
    exact alookup_mem this
  · -- relative ordering is preserved
    intro k1 k2 p1 p2 q1 q2 hp1 hp2 hq1 hq2
    have h1 := hfold.2.2.2.1 k1 (mem_keys_of_alookup hp1)
    have h2 := hfold.2.2.2.1 k2 (mem_keys_of_alookup hp2)
    rw [hp1] at h1
    rw [hp2] at h2
    rw [hq1] at h1
    rw [hq2] at h2
    obtain rfl := Option.some.inj h1
    obtain rfl := Option.some.inj h2
    simp only [Option.map_some]
    constructor <;> intro h <;> omega
  · -- minFreq is a lower bound on the live frequencies
      intro n hn
      have hra := alookup_of_mem_nodup hfold.1.1 hn
      have hnk : n.1 ∈ c.nodes.map (fun m => m.1) := by
        have := mem_keys_of_alookup hra
        rw [hfold.2.1] at this
        exact this
      obtain ⟨p0, hp0⟩ := Option.isSome_iff_exists.mp
        (alookup_isSome_of_mem_keys hnk)
      have hshift := hfold.2.2.2.1 n.1 hnk
      rw [hp0] at hshift
      rw [hra] at hshift
      obtain h2 := Option.some.inj hshift
      have hle := (KLfuCache.foldl_min_le (c.nodes.map (fun m => m.1))
        (fun j => ((alookup c.nodes j).map
          (fun p => p.2 - c.maxAverageNum / 2)).getD 0) c.minFreq).2 n.1 hnk
      rw [hfold.2.2.2.2.2.2]
      have hg : ((alookup c.nodes n.1).map
          (fun p => p.2 - c.maxAverageNum / 2)).getD 0
            = p0.2 - c.maxAverageNum / 2 := by
        rw [hp0]; rfl
      rw [hg] at hle
      have : n.2.2 = p0.2 - c.maxAverageNum / 2 := by rw [h2]
      rw [this]
      exact hle
  · -- some node attains it
      obtain ⟨n0, hn0, hfz⟩ := hmin.2
      have hn0k : n0.1 ∈ c.nodes.map (fun m => m.1) :=
        List.mem_map.mpr ⟨n0, hn0, rfl⟩
      have hl0 : alookup c.nodes n0.1 = some n0.2 :=
        alookup_of_mem_nodup hwf.1 hn0
      have hg0 : ((alookup c.nodes n0.1).map
          (fun p => p.2 - c.maxAverageNum / 2)).getD 0
            = c.minFreq - c.maxAverageNum / 2 := by
        rw [hl0]
        show n0.2.2 - c.maxAverageNum / 2 = _
        rw [hfz]
      rcases KLfuCache.foldl_min_cases (c.nodes.map (fun m => m.1))
          (fun j => ((alookup c.nodes j).map
            (fun p => p.2 - c.maxAverageNum / 2)).getD 0) c.minFreq with
        hcase | ⟨j, hj, hcase⟩
      · -- impossible: the fold is at most minFreq - d < minFreq
        exfalso
        have hle := (KLfuCache.foldl_min_le (c.nodes.map (fun m => m.1))
          (fun j => ((alookup c.nodes j).map
            (fun p => p.2 - c.maxAverageNum / 2)).getD 0) c.minFreq).2
          n0.1 hn0k
        rw [hg0, hcase] at hle
        omega
      · obtain ⟨pj, hpj⟩ := Option.isSome_iff_exists.mp
          (alookup_isSome_of_mem_keys hj)
        have hshift := hfold.2.2.2.1 j hj
        rw [hpj] at hshift
        refine ⟨(j, pj.1, pj.2 - c.maxAverageNum / 2), alookup_mem hshift,
          ?_⟩
        show pj.2 - c.maxAverageNum / 2 = _
        rw [hfold.2.2.2.2.2.2, hcase, hpj]
        rfl

/-- C4 witness: a two-node state (frequencies 7 and 1, minFreq 1, average
5 over threshold 4) ages to frequencies 5 and -1 with minFreq -1 attained
and the lists consistent. -/
theorem lfu_aging_spec_witness :
    ((5 : Int), (20 : Nat), ((-1 : Int))) = (5, 20, -1) ∧
      (1, 10, 7 - (4 : Int) / 2) ∈ (KLfuCache.handleOverMaxAverageNum
        { capacity := 2, maxAverageNum := 4, minFreq := 1, curTotalNum := 10,
          curAverageNum := 5, nodes := [(1, 10, 7), (2, 20, 1)],
          buckets := [(7, [1]), (1, [2])] }).nodes ∧
      KLfuCache.I4min (KLfuCache.handleOverMaxAverageNum
        { capacity := 2, maxAverageNum := 4, minFreq := 1, curTotalNum := 10,
          curAverageNum := 5, nodes := [(1, 10, 7), (2, 20, 1)],
          buckets := [(7, [1]), (1, [2])] }) := by
  have h := lfu_aging_spec
    { capacity := 2, maxAverageNum := 4, minFreq := 1, curTotalNum := 10,
      curAverageNum := 5, nodes := [(1, 10, 7), (2, 20, 1)],
      buckets := [(7, [1]), (1, [2])] }
    (by decide) (by decide) (by decide) (by decide) (by decide)
  exact ⟨rfl, h.1 1 10 7 (by decide), h.2.2.2.2.2⟩

/-- C5: the aging pass changes only node frequencies, frequency-list
membership and minFreq_ — in particular it leaves curTotalNum_ and
curAverageNum_ (and the capacity, the threshold, the key set and the stored
values) unchanged.  Consequently, on a state whose average (still) exceeds
the threshold, a get hit — an access that increments a frequency without
changing the node count — triggers another full pass, shifting every
frequency down by maxAverageNum / 2 again; iterating drives frequencies
below zero, as the concrete run in the last component shows. -/
theorem lfu_aging_frame_retrigger_unbounded :
    (∀ c : KLfuCache,
      (KLfuCache.handleOverMaxAverageNum c).curTotalNum = c.curTotalNum ∧
        (KLfuCache.handleOverMaxAverageNum c).curAverageNum
          = c.curAverageNum ∧
        (KLfuCache.handleOverMaxAverageNum c).capacity = c.capacity ∧
        (KLfuCache.handleOverMaxAverageNum c).maxAverageNum
          = c.maxAverageNum ∧
        (KLfuCache.handleOverMaxAverageNum c).nodes.map (fun n => n.1)
          = c.nodes.map (fun n => n.1)) ∧
      (∀ (c : KLfuCache) (k v : Nat) (f : Int), KLfuCache.WF c →
        alookup c.nodes k = some (v, f) →
        alookup (KLfuCache.handleOverMaxAverageNum c).nodes k
          = some (v, f - c.maxAverageNum / 2)) ∧
      (∀ (c : KLfuCache) (k v : Nat) (f : Int), KLfuCache.WF c →
        alookup c.nodes k = some (v, f) →
        c.curAverageNum = c.curTotalNum / (c.nodes.length : Int) →
        c.curAverageNum > c.maxAverageNum →
        alookup (KLfuCache.get c k).2.2.nodes k
            = some (v, f + 1 - c.maxAverageNum / 2) ∧
          (∀ j p, j ≠ k → alookup c.nodes j = some p →
            alookup (KLfuCache.get c k).2.2.nodes j
              = some (p.1, p.2 - c.maxAverageNum / 2))) ∧
      alookup (runLfu
        [LfuOp.put 1 10, LfuOp.put 2 20, LfuOp.get 1, LfuOp.get 1,
         LfuOp.get 1, LfuOp.get 1, LfuOp.get 1, LfuOp.get 1, LfuOp.get 1,
         LfuOp.get 1] (KLfuCache.init 2 4)).nodes 2 = some (20, -1) := by
  refine ⟨?_, ?_, ?_, by decide⟩
  · intro c
    have h := KLfuCache.foldl_agingStep_frame (c.maxAverageNum / 2)
      (c.nodes.map (fun n => n.1)) c
    exact ⟨h.2.2.1, h.2.2.2.1, h.1, h.2.1, h.2.2.2.2⟩
  · intro c k v f hwf hk
    have hfold := KLfuCache.aging_fold (c.maxAverageNum / 2)
      (c.nodes.map (fun n => n.1)) c hwf.1
      (fun j hj => alookup_isSome_of_mem_keys hj) hwf
    have h := hfold.2.2.2.1 k (mem_keys_of_alookup hk)
    rw [hk] at h
    exact h
  · intro c k v f hwf hk hcons htrig
    have hmemc : c.nodes ≠ [] := List.ne_nil_of_mem (alookup_mem hk)
    have hlen : (0 : Int) < (c.nodes.length : Int) := by
      have hlz : c.nodes.length ≠ 0 := by
        intro h0
        exact hmemc (List.eq_nil_of_length_eq_zero h0)
      exact_mod_cast Nat.pos_of_ne_zero hlz
    have core : ∀ mf : Int,
        alookup (KLfuCache.addFreqNum
          { c with nodes := KLfuCache.setFreq c.nodes k (f + 1),
                   buckets := KLfuCache.addToFreqList
                     (KLfuCache.removeFromFreqList c.buckets k) k (f + 1),
                   minFreq := mf }).nodes k
            = some (v, f + 1 - c.maxAverageNum / 2) ∧
          (∀ j p, j ≠ k → alookup c.nodes j = some p →
            alookup (KLfuCache.addFreqNum
              { c with nodes := KLfuCache.setFreq c.nodes k (f + 1),
                       buckets := KLfuCache.addToFreqList
                         (KLfuCache.removeFromFreqList c.buckets k) k
                         (f + 1),
                       minFreq := mf }).nodes j
              = some (p.1, p.2 - c.maxAverageNum / 2)) := by
      intro mf
      have hmv := KLfuCache.moveNode_spec c k v f (f + 1) mf hwf hk
      have hsne : ¬ (KLfuCache.setFreq c.nodes k (f + 1)) = [] := by
        intro h0
        have hx : alookup (KLfuCache.setFreq c.nodes k (f + 1)) k
            = some (v, f + 1) := hmv.2.1
        rw [h0] at hx
        exact absurd hx (by simp [alookup])
      have hslen : (KLfuCache.setFreq c.nodes k (f + 1)).length
          = c.nodes.length := by
        unfold KLfuCache.setFreq
        exact List.length_map _ _
      have hstrig : (c.curTotalNum + 1)
          / (((KLfuCache.setFreq c.nodes k (f + 1)).length : Nat) : Int)
            > c.maxAverageNum := by
        rw [hslen]
        have hmono : c.curTotalNum / (c.nodes.length : Int)
            ≤ (c.curTotalNum + 1) / (c.nodes.length : Int) :=
          Int.ediv_le_ediv hlen (by omega)
        rw [hcons] at htrig
        exact lt_of_lt_of_le htrig hmono
      rw [KLfuCache.addFreqNum_triggers
        { c with nodes := KLfuCache.setFreq c.nodes k (f + 1),
                 buckets := KLfuCache.addToFreqList
                   (KLfuCache.removeFromFreqList c.buckets k) k (f + 1),
                 minFreq := mf } hsne hstrig]
      have hswf : KLfuCache.WF
          { c with nodes := KLfuCache.setFreq c.nodes k (f + 1),
                   buckets := KLfuCache.addToFreqList
                     (KLfuCache.removeFromFreqList c.buckets k) k (f + 1),
                   minFreq := mf,
                   curTotalNum := c.curTotalNum + 1,
                   curAverageNum := (c.curTotalNum + 1)
                     / ((KLfuCache.setFreq c.nodes k (f + 1)).length : Int) }
          := KLfuCache.WF_congr rfl rfl hmv.1
      have hkeysnd : (((KLfuCache.setFreq c.nodes k (f + 1)).map
          (fun n => n.1))).Nodup := by
        rw [KLfuCache.setFreq_keys]
        exact hwf.1
      have hfold := KLfuCache.aging_fold (c.maxAverageNum / 2)
        ((KLfuCache.setFreq c.nodes k (f + 1)).map (fun n => n.1))
        { c with nodes := KLfuCache.setFreq c.nodes k (f + 1),
                 buckets := KLfuCache.addToFreqList
                   (KLfuCache.removeFromFreqList c.buckets k) k (f + 1),
                 minFreq := mf,
                 curTotalNum := c.curTotalNum + 1,
                 curAverageNum := (c.curTotalNum + 1)
                   / ((KLfuCache.setFreq c.nodes k (f + 1)).length : Int) }
        hkeysnd (fun j hj => alookup_isSome_of_mem_keys hj) hswf
      have hlk3 : alookup (KLfuCache.setFreq c.nodes k (f + 1)) k
          = some (v, f + 1) := hmv.2.1
      constructor
      · have h1 := hfold.2.2.2.1 k (mem_keys_of_alookup hlk3)
        rw [hlk3] at h1
        exact h1
      · intro j p hjk hjp
        have hlj3 : alookup (KLfuCache.setFreq c.nodes k (f + 1)) j
            = some p := by
          rw [hmv.2.2.1 j hjk]
          exact hjp
        have h2 := hfold.2.2.2.1 j (mem_keys_of_alookup hlj3)
        rw [hlj3] at h2
        exact h2
    unfold KLfuCache.get KLfuCache.getInternal
    rw [hk]
    simp only []
    split
    · exact core _
    · exact core _

/-- C5 witness: on a concrete two-node state with average 5 over threshold
4, one further get hit re-triggers the pass: the hit node goes from
frequency 7 to 6 (up one, down two) and the idle node from 1 to -1. -/
theorem lfu_aging_frame_retrigger_unbounded_witness :
    alookup (KLfuCache.get
      { capacity := 2, maxAverageNum := 4, minFreq := 1, curTotalNum := 10,
        curAverageNum := 5, nodes := [(1, 10, 7), (2, 20, 1)],
        buckets := [(7, [1]), (1, [2])] } 1).2.2.nodes 1 = some (10, 6) ∧
      alookup (KLfuCache.get
        { capacity := 2, maxAverageNum := 4, minFreq := 1, curTotalNum := 10,
          curAverageNum := 5, nodes := [(1, 10, 7), (2, 20, 1)],
          buckets := [(7, [1]), (1, [2])] } 1).2.2.nodes 2
        = some (20, -1) := by
  have h := lfu_aging_frame_retrigger_unbounded
  have hb := h.2.2.1
    { capacity := 2, maxAverageNum := 4, minFreq := 1, curTotalNum := 10,
      curAverageNum := 5, nodes := [(1, 10, 7), (2, 20, 1)],
      buckets := [(7, [1]), (1, [2])] } 1 10 7
    (by decide) (by decide) (by decide) (by decide)
  exact ⟨hb.1, hb.2 2 (20, 1) (by decide) (by decide)⟩

/-- C7 counterexample: capacity 2, maxAverageNum 4.  After
`put(1), put(2)` and eight hits on key 1, an aging pass has left key 2 at
frequency -1 and minFreq_ at -1.  The cache is full and key 3 absent, so
`put(3, 30)` is a put-miss on a full cache; afterwards minFreq_ is -1, not
1 (putInternal computes `min(minFreq_, 1)`), and key 3 does not sit in
frequency list 1 (the insertion re-triggered the aging pass). -/
theorem lfu_put_full_minfreq_ce :
    (runLfu
        [LfuOp.put 1 10, LfuOp.put 2 20, LfuOp.get 1, LfuOp.get 1,
         LfuOp.get 1, LfuOp.get 1, LfuOp.get 1, LfuOp.get 1, LfuOp.get 1,
         LfuOp.get 1] (KLfuCache.init 2 4)).nodes.length
      = (runLfu
        [LfuOp.put 1 10, LfuOp.put 2 20, LfuOp.get 1, LfuOp.get 1,
         LfuOp.get 1, LfuOp.get 1, LfuOp.get 1, LfuOp.get 1, LfuOp.get 1,
         LfuOp.get 1] (KLfuCache.init 2 4)).capacity ∧
      alookup (runLfu
        [LfuOp.put 1 10, LfuOp.put 2 20, LfuOp.get 1, LfuOp.get 1,
         LfuOp.get 1, LfuOp.get 1, LfuOp.get 1, LfuOp.get 1, LfuOp.get 1,
         LfuOp.get 1] (KLfuCache.init 2 4)).nodes 3 = none ∧
      ((runLfu
        [LfuOp.put 1 10, LfuOp.put 2 20, LfuOp.get 1, LfuOp.get 1,
         LfuOp.get 1, LfuOp.get 1, LfuOp.get 1, LfuOp.get 1, LfuOp.get 1,
         LfuOp.get 1] (KLfuCache.init 2 4)).put 3 30).minFreq = -1 ∧
      ¬ ((runLfu
        [LfuOp.put 1 10, LfuOp.put 2 20, LfuOp.get 1, LfuOp.get 1,
         LfuOp.get 1, LfuOp.get 1, LfuOp.get 1, LfuOp.get 1, LfuOp.get 1,
         LfuOp.get 1] (KLfuCache.init 2 4)).put 3 30).minFreq = 1 ∧
      3 ∉ ((runLfu
        [LfuOp.put 1 10, LfuOp.put 2 20, LfuOp.get 1, LfuOp.get 1,
         LfuOp.get 1, LfuOp.get 1, LfuOp.get 1, LfuOp.get 1, LfuOp.get 1,
         LfuOp.get 1] (KLfuCache.init 2 4)).put 3 30).bucketOf 1 := by
  decide

/-- C7 (amended): on a full KLfuCache with duplicate-free keys, a put of an
absent key first evicts the head-adjacent node `e` of the minFreq_ list,
then inserts the new node at frequency 1 into list 1; minFreq_ becomes
`min(minFreq_, 1)`, which equals 1 whenever minFreq_ ≥ 1 held before, all
provided the insertion does not re-trigger an aging pass. -/
theorem lfu_put_full_eviction_spec (c : KLfuCache) (k v : Nat) (e ve : Nat)
    (fe : Int)
    (hnd : (c.nodes.map (fun n => n.1)).Nodup)
    (hcap : ¬ c.capacity = 0)
    (hfull : c.nodes.length = c.capacity)
    (habs : alookup c.nodes k = none)
    (hminpos : 1 ≤ c.minFreq)
    (hvic : (c.bucketOf c.minFreq).head? = some e)
    (hef : alookup c.nodes e = some (ve, fe))
    (hnoag : ¬ ((c.curTotalNum - fe + 1) / (c.nodes.length : Int)
      > c.maxAverageNum)) :
    alookup (c.put k v).nodes e = none ∧
      alookup (c.put k v).nodes k = some (v, 1) ∧
      k ∈ (c.put k v).bucketOf 1 ∧
      (c.put k v).minFreq = 1 ∧
      (c.put k v).nodes.length = c.nodes.length ∧
      (∀ j p, j ≠ e → j ≠ k → alookup c.nodes j = some p →
        alookup (c.put k v).nodes j = some p) := by
  have hek : e ≠ k := by
    intro h
    rw [h, habs] at hef
    exact absurd hef (by simp)
  have hkick : KLfuCache.kickOut c = KLfuCache.decreaseFreqNum
      { c with buckets := KLfuCache.removeFromFreqList c.buckets e,
               nodes := aerase c.nodes e } fe := by
    unfold KLfuCache.kickOut
    simp only [hvic, hef]
  have hlen2 : (aerase c.nodes e ++ [(k, v, 1)]).length = c.nodes.length := by
    rw [List.length_append]
    exact aerase_length_of_mem (mem_keys_of_alookup hef)
  have hne2 : ¬ (aerase c.nodes e ++ [(k, v, 1)]
      : List (Nat × Nat × Int)) = [] := by simp
  have hnoag2 : ¬ ((c.curTotalNum - fe + 1)
      / (((aerase c.nodes e ++ [(k, v, 1)]).length : Nat) : Int)
        > c.maxAverageNum) := by
    rw [hlen2]
    exact hnoag
  have hred : c.put k v =
      { capacity := c.capacity, maxAverageNum := c.maxAverageNum,
        minFreq := min c.minFreq 1,
        curTotalNum := c.curTotalNum - fe + 1,
        curAverageNum := (c.curTotalNum - fe + 1)
          / ((aerase c.nodes e ++ [(k, v, 1)]).length : Int),
        nodes := aerase c.nodes e ++ [(k, v, 1)],
        buckets := KLfuCache.addToFreqList
          (KLfuCache.removeFromFreqList c.buckets e) k 1 } := by
    unfold KLfuCache.put
    rw [if_neg hcap]
    simp only [habs]
    unfold KLfuCache.putInternal
    simp only []
    rw [if_pos hfull, hkick]
    unfold KLfuCache.decreaseFreqNum
    simp only []
    unfold KLfuCache.addFreqNum
    simp only []
    rw [if_neg hne2, if_neg hnoag2]
  rw [hred]
  refine ⟨?_, ?_, ?_, ?_, ?_, ?_⟩
  · show alookup (aerase c.nodes e ++ [(k, (v, 1))]) e = none
    rw [alookup_append_ne _ k e (v, 1) hek]
    exact alookup_aerase_self c.nodes e hnd
  · show alookup (aerase c.nodes e ++ [(k, (v, 1))]) k = some (v, 1)
    refine alookup_append_self _ k (v, 1) ?_
    rw [alookup_aerase_of_ne c.nodes e k (fun h => hek h.symm)]
    exact habs
  · show k ∈ blookup (KLfuCache.addToFreqList
      (KLfuCache.removeFromFreqList c.buckets e) k 1) 1
    rw [KLfuCache.blookup_addToFreqList_self]
    simp
  · show min c.minFreq 1 = 1
    exact min_eq_right hminpos
  · exact hlen2
  · intro j p hje hjk hjp
    show alookup (aerase c.nodes e ++ [(k, (v, 1))]) j = some p
    rw [alookup_append_ne _ k j (v, 1) hjk,
      alookup_aerase_of_ne c.nodes e j hje]
    exact hjp

/-- C7 witness: a full two-node cache with minFreq 1; putting absent key 3
evicts the head of list 1 (key 2), inserts key 3 at frequency 1 into list
1, and sets minFreq to 1. -/
theorem lfu_put_full_eviction_spec_witness :
    alookup (KLfuCache.put
      { capacity := 2, maxAverageNum := 10, minFreq := 1, curTotalNum := 3,
        curAverageNum := 1, nodes := [(1, 10, 2), (2, 20, 1)],
        buckets := [(2, [1]), (1, [2])] } 3 30).nodes 2 = none ∧
      alookup (KLfuCache.put
        { capacity := 2, maxAverageNum := 10, minFreq := 1, curTotalNum := 3,
          curAverageNum := 1, nodes := [(1, 10, 2), (2, 20, 1)],
          buckets := [(2, [1]), (1, [2])] } 3 30).nodes 3 = some (30, 1) ∧
      3 ∈ (KLfuCache.put
        { capacity := 2, maxAverageNum := 10, minFreq := 1, curTotalNum := 3,
          curAverageNum := 1, nodes := [(1, 10, 2), (2, 20, 1)],
          buckets := [(2, [1]), (1, [2])] } 3 30).bucketOf 1 ∧
      (KLfuCache.put
        { capacity := 2, maxAverageNum := 10, minFreq := 1, curTotalNum := 3,
          curAverageNum := 1, nodes := [(1, 10, 2), (2, 20, 1)],
          buckets := [(2, [1]), (1, [2])] } 3 30).minFreq = 1 := by
  have h := lfu_put_full_eviction_spec
    { capacity := 2, maxAverageNum := 10, minFreq := 1, curTotalNum := 3,
      curAverageNum := 1, nodes := [(1, 10, 2), (2, 20, 1)],
      buckets := [(2, [1]), (1, [2])] } 3 30 2 20 1
    (by decide) (by decide) (by decide) (by decide) (by decide) (by decide)
    (by decide) (by decide)
  exact ⟨h.1, h.2.1, h.2.2.1, h.2.2.2.1⟩

/-! ## KArcCache (src/KArcCache.h)

The ARC engine composes an LRU part and an LFU part.  Their nodes carry an
identity `id` (a stable tag standing for the C++ node object) so that the
pointer-based unlink operations can be modelled exactly even when the same
key ends up on two linked nodes, which KLruPart::put makes possible.  All
lists are kept head side first. -/

structure RNode where
  id : Nat
  key : Nat
  value : Nat
  time : Int
deriving DecidableEq

/-- Modelled from the spec: RNode is declared in KICachePolicy.h, which is
not among the source files.  Sections 4.4 and S4 of the specification fix
the initial access count of a fresh node at 1 ("on the second call, the
time of k reaches 2" with transformTime 2); each access increments it. -/
def RNode.fresh (i k v : Nat) : RNode :=
  { id := i, key := k, value := v, time := 1 }

def findById (l : List RNode) (i : Nat) : Option RNode :=
  l.find? (fun n => n.id = i)

def eraseById : List RNode → Nat → List RNode
  | [], _ => []
  | n :: l, i => if n.id = i then l else n :: eraseById l i

structure KLruPart where
  capacity : Nat
  ghostCapacity : Nat
  transformTime : Int
  live : List RNode
  liveMap : List (Nat × Nat)
  ghost : List RNode
  ghostMap : List (Nat × Nat)
  nextId : Nat
deriving DecidableEq

namespace KLruPart

/-- Constructor: both the live capacity and the fixed ghost capacity are the
given capacity. -/
def init (capacity : Nat) (transformTime : Int) : KLruPart :=
  { capacity := capacity, ghostCapacity := capacity,
    transformTime := transformTime, live := [], liveMap := [], ghost := [],
    ghostMap := [], nextId := 0 }

/-- KLruPart::adjustList: bump the access count of the node, unlink it and
re-append it at the tail.  removeNode skips the unlink when the key map is
empty (and the C++ prints a message); insertToList still appends. -/
def adjustList (s : KLruPart) (i : Nat) : KLruPart :=
  match findById s.live i with
  | none => s
  | some n =>
      let n2 : RNode := { n with time := n.time + 1 }
      if s.liveMap = [] then
        { s with live := (s.live.map (fun m => if m.id = i then n2 else m))
            ++ [n2] }
      else
        { s with live := eraseById s.live i ++ [n2] }

/-- KLruPart::kickOut(true): drop the oldest ghost node.  The C++ raises
when the ghost map is empty; with a nonempty map but an empty list it would
unlink the tail sentinel.  Both cases are unreachable in the verified
states and modelled as no-ops. -/
def kickOutGhost (s : KLruPart) : KLruPart :=
  if s.ghostMap = [] then s
  else
    match s.ghost.head? with
    | none => s
    | some n =>
        { s with ghost := eraseById s.ghost n.id,
                 ghostMap := aerase s.ghostMap n.key }

/-- KLruPart::kickOut(false): evict the head-adjacent live node into the
ghost list, making room there first when the ghost map is at the fixed
ghost capacity. -/
def kickOutMain (s : KLruPart) : KLruPart :=
  if s.liveMap = [] then s
  else
    match s.live.head? with
    | none => s
    | some n =>
        let s1 := { s with live := eraseById s.live n.id,
                           liveMap := aerase s.liveMap n.key }
        let s2 := if s1.ghostMap.length ≥ s1.ghostCapacity then
                    kickOutGhost s1
                  else s1
        { s2 with ghost := s2.ghost ++ [n],
                  ghostMap := aupsert s2.ghostMap n.key n.id }

/-- The shared tail of KLruPart::put: evict when the map is at capacity,
then link a fresh node at the tail and index it. -/
def insertFresh (s : KLruPart) (k v : Nat) : KLruPart :=
  let s1 := if s.liveMap.length ≥ s.capacity then kickOutMain s else s
  { s1 with live := s1.live ++ [RNode.fresh s1.nextId k v],
            liveMap := aupsert s1.liveMap k s1.nextId,
            nextId := s1.nextId + 1 }

/-- KLruPart::put.  Returns true when the key was present and its bumped
access count equals transformTime_.  When the key is present but the count
differs, control falls through to the absent-key path and links a second
node for the same key (see the comments at src/KArcCache.h lines 55-65,
which describe that path as the key-absent case). -/
def put (s : KLruPart) (k v : Nat) : Bool × KLruPart :=
  if s.capacity = 0 then (false, s)
  else
    match alookup s.liveMap k with
    | some i =>
        let s1 := adjustList s i
        if (findById s1.live i).map (fun n => n.time)
            = some s1.transformTime then (true, s1)
        else (false, insertFresh s1 k v)
    | none => (false, insertFresh s k v)

/-- KLruPart::get: on a hit, refresh the node and report its value; the
isTransform flag is set exactly when the bumped count equals
transformTime_. -/
def get (s : KLruPart) (k : Nat) : Bool × Nat × Bool × KLruPart :=
  match alookup s.liveMap k with
  | some i =>
      let s1 := adjustList s i
      match findById s1.live i with
      | some n => (true, n.value, decide (n.time = s1.transformTime), s1)
      | none => (true, 0, false, s1)
  | none => (false, 0, false, s)

/-- KLruPart::checkGhost: remove the key from the ghost and report whether
it was there. -/
def checkGhost (s : KLruPart) (k : Nat) : Bool × KLruPart :=
  match alookup s.ghostMap k with
  | some i =>
      (true, { s with ghost := eraseById s.ghost i,
                      ghostMap := aerase s.ghostMap k })
  | none => (false, s)

/-- KLruPart::increase. -/
def increase (s : KLruPart) : KLruPart :=
  { s with capacity := s.capacity + 1 }

/-- KLruPart::decrease: refuse at capacity 0; otherwise evict when the map
is exactly at capacity, then shrink. -/
def decrease (s : KLruPart) : Bool × KLruPart :=
  if s.capacity = 0 then (false, s)
  else
    let s1 := if s.liveMap.length = s.capacity then kickOutMain s else s
    (true, { s1 with capacity := s1.capacity - 1 })

end KLruPart

structure FNode where
  id : Nat
  key : Nat
  value : Nat
  freq : Int
deriving DecidableEq

def findFNode (l : List FNode) (i : Nat) : Option FNode :=
  l.find? (fun n => n.id = i)

def eraseFNodeById : List FNode → Nat → List FNode
  | [], _ => []
  | n :: l, i => if n.id = i then l else n :: eraseFNodeById l i

/-- State of KLfuPart.  `store` is the set of live nodes (each node of the
frequency lists appears there once, addressed by id); `buckets` maps a
frequency to the ids of its list, head side first.  The C++ constructor of
KLfuPart initialises capacity_, freq and ghostList_ only: minFreq_ and
ghostCapacity_ are read before ever being written, so the model carries
their indeterminate initial values as constructor parameters. -/
structure KLfuPart where
  capacity : Nat
  freq : Nat
  minFreq : Int
  ghostCapacity : Nat
  keyToNode : List (Nat × Nat)
  store : List FNode
  buckets : List (Int × List Nat)
  ghost : List FNode
  ghostMap : List (Nat × Nat)
  nextId : Nat
deriving DecidableEq

namespace KLfuPart

/-- Constructor: KLfuPart(capacity, transformTime) stores transformTime in
the member `freq` and builds the ghost list; minFreq_ and ghostCapacity_
are left indeterminate (parameters `minFreq0` and `ghostCapacity0`). -/
def init (capacity transformTime : Nat) (minFreq0 : Int)
    (ghostCapacity0 : Nat) : KLfuPart :=
  { capacity := capacity, freq := transformTime, minFreq := minFreq0,
    ghostCapacity := ghostCapacity0, keyToNode := [], store := [],
    buckets := [], ghost := [], ghostMap := [], nextId := 0 }

/-- KLfuPart::adjustList: move the node one frequency up, then advance
minFreq_ when the node now sits one above it and the minFreq_ list is
empty. -/
def adjustList (s : KLfuPart) (i : Nat) : KLfuPart :=
  match findFNode s.store i with
  | none => s
  | some n =>
      let f2 := n.freq + 1
      let s1 := { s with
        buckets := KLfuCache.addToFreqList
          (KLfuCache.removeFromFreqList s.buckets i) i f2,
        store := s.store.map
          (fun m => if m.id = i then { m with freq := f2 } else m) }
      if f2 = s1.minFreq + 1 ∧ blookup s1.buckets s1.minFreq = [] then
        { s1 with minFreq := s1.minFreq + 1 }
      else s1

/-- KLfuPart::kickOut(true): drop the oldest ghost node (an empty ghost
list would make the C++ unlink the sentinel; modelled as a no-op). -/
def kickOutGhost (s : KLfuPart) : KLfuPart :=
  match s.ghost.head? with
  | none => s
  | some n =>
      { s with ghost := eraseFNodeById s.ghost n.id,
               ghostMap := aerase s.ghostMap n.key }

/-- KLfuPart::kickOut(false): evict the head-adjacent node of the minFreq_
list into the ghost.  An empty or absent minFreq_ list makes the C++
dereference the sentinel; modelled as a no-op. -/
def kickOutMain (s : KLfuPart) : KLfuPart :=
  match (blookup s.buckets s.minFreq).head? with
  | none => s
  | some i =>
      match findFNode s.store i with
      | none => s
      | some n =>
          let s1 := { s with keyToNode := aerase s.keyToNode n.key,
                             buckets := KLfuCache.removeFromFreqList
                               s.buckets i,
                             store := eraseFNodeById s.store i }
          let s2 := if s1.ghostMap.length ≥ s1.ghostCapacity then
                      kickOutGhost s1
                    else s1
          { s2 with ghost := s2.ghost ++ [n],
                    ghostMap := aupsert s2.ghostMap n.key n.id }

/-- KLfuPart::putInternal: evict when full, insert the fresh node at
frequency 1 and reset minFreq_ to 1. -/
def putInternal (s : KLfuPart) (k v : Nat) : KLfuPart :=
  let s1 := if s.keyToNode.length ≥ s.capacity then kickOutMain s else s
  let s2 := { s1 with
              keyToNode := aupsert s1.keyToNode k s1.nextId,
              store := s1.store ++
                [({ id := s1.nextId, key := k, value := v,
                    freq := 1 } : FNode)],
              buckets := KLfuCache.addToFreqList s1.buckets s1.nextId 1,
              nextId := s1.nextId + 1 }
  { s2 with minFreq := 1 }

/-- KLfuPart::put: overwrite and promote a present key, insert an absent
one; capacity 0 is a no-op. -/
def put (s : KLfuPart) (k v : Nat) : KLfuPart :=
  if s.capacity = 0 then s
  else
    match alookup s.keyToNode k with
    | some i =>
        adjustList
          { s with store := s.store.map
                     (fun m => if m.id = i then { m with value := v }
                               else m) } i
    | none => putInternal s k v

/-- KLfuPart::get. -/
def get (s : KLfuPart) (k : Nat) : Bool × Nat × KLfuPart :=
  match alookup s.keyToNode k with
  | some i =>
      match findFNode s.store i with
      | some n => (true, n.value, adjustList s i)
      | none => (false, 0, s)
  | none => (false, 0, s)

/-- KLfuPart::checkGhost. -/
def checkGhost (s : KLfuPart) (k : Nat) : Bool × KLfuPart :=
  match alookup s.ghostMap k with
  | some i =>
      (true, { s with ghost := eraseFNodeById s.ghost i,
                      ghostMap := aerase s.ghostMap k })
  | none => (false, s)

/-- KLfuPart::increase. -/
def increase (s : KLfuPart) : KLfuPart :=
  { s with capacity := s.capacity + 1 }

/-- KLfuPart::decrease: refuse at capacity 0; otherwise evict when the map
is exactly at capacity, then shrink. -/
def decrease (s : KLfuPart) : Bool × KLfuPart :=
  if s.capacity = 0 then (false, s)
  else
    let s1 := if s.keyToNode.length = s.capacity then kickOutMain s else s
    (true, { s1 with capacity := s1.capacity - 1 })

end KLfuPart

structure KArcCache where
  capacity : Nat
  transformTime : Nat
  lru : KLruPart
  lfu : KLfuPart
deriving DecidableEq

namespace KArcCache

/-- Constructor: both halves are built with the full total capacity (the
constructor passes `capacity` to KLruPart and to KLfuPart alike).  The two
trailing parameters carry the indeterminate initial values of the LFU
half. -/
def init (capacity transformTime : Nat) (minFreq0 : Int)
    (ghostCapacity0 : Nat) : KArcCache :=
  { capacity := capacity, transformTime := transformTime,
    lru := KLruPart.init capacity (transformTime : Int),
    lfu := KLfuPart.init capacity transformTime minFreq0 ghostCapacity0 }

/-- KArcCache::checkGhost: an LRU-ghost hit shrinks the LFU half and, when
the shrink succeeded, grows the LRU half; symmetrically for an LFU-ghost
hit.  The hit key is removed from its ghost. -/
def checkGhost (a : KArcCache) (k : Nat) : Bool × KArcCache :=
  let r1 := a.lru.checkGhost k
  if r1.1 then
    let r2 := a.lfu.decrease
    let lru2 := if r2.1 then r1.2.increase else r1.2
    (true, { a with lru := lru2, lfu := r2.2 })
  else
    let r3 := a.lfu.checkGhost k
    if r3.1 then
      let r4 := r1.2.decrease
      let lfu2 := if r4.1 then r3.2.increase else r3.2
      (true, { a with lru := r4.2, lfu := lfu2 })
    else
      (false, { a with lru := r1.2, lfu := r3.2 })

/-- KArcCache::put: consult the ghosts, then feed the LRU half; on a ghost
miss a graduation signal copies the pair into the LFU half as well. -/
def put (a : KArcCache) (k v : Nat) : KArcCache :=
  let cg := a.checkGhost k
  if cg.1 then
    let r := cg.2.lru.put k v
    { cg.2 with lru := r.2 }
  else
    let r := cg.2.lru.put k v
    if r.1 then { cg.2 with lru := r.2, lfu := cg.2.lfu.put k v }
    else { cg.2 with lru := r.2 }

/-- KArcCache::get: consult the ghosts, then the LRU half (copying into the
LFU half on a graduation signal), then the LFU half. -/
def get (a : KArcCache) (k : Nat) : Bool × Nat × KArcCache :=
  let cg := a.checkGhost k
  let r := cg.2.lru.get k
  if r.1 then
    if r.2.2.1 then
      (true, r.2.1, { cg.2 with lru := r.2.2.2,
                                lfu := cg.2.lfu.put k r.2.1 })
    else (true, r.2.1, { cg.2 with lru := r.2.2.2 })
  else
    let r2 := cg.2.lfu.get k
    (r2.1, r2.2.1, { cg.2 with lru := r.2.2.2, lfu := r2.2.2 })

end KArcCache

/-- Operation alphabet of the public ARC interface. -/
inductive ArcOp where
  | put (k v : Nat)
  | get (k : Nat)
deriving DecidableEq

def runArc (ops : List ArcOp) (a : KArcCache) : KArcCache :=
  ops.foldl
    (fun s op =>
      match op with
      | ArcOp.put k v => s.put k v
      | ArcOp.get k => (s.get k).2.2) a

/-! Capacity bookkeeping of the ARC halves: the only operations that touch
a half capacity are increase and decrease. -/

namespace KLruPart

theorem lruPart_kickOutGhost_capacity (s : KLruPart) :
    (kickOutGhost s).capacity = s.capacity := by
  unfold kickOutGhost
  split
  · rfl
  · split <;> rfl

theorem lruPart_kickOutMain_capacity (s : KLruPart) :
    (kickOutMain s).capacity = s.capacity := by
  unfold kickOutMain
  split
  · rfl
  · split
    · rfl
    · simp only []
      split
      · exact lruPart_kickOutGhost_capacity _
      · rfl

theorem lruPart_adjustList_capacity (s : KLruPart) (i : Nat) :
    (adjustList s i).capacity = s.capacity := by
  unfold adjustList
  split
  · rfl
  · split <;> rfl

theorem lruPart_insertFresh_capacity (s : KLruPart) (k v : Nat) :
    (insertFresh s k v).capacity = s.capacity := by
  unfold insertFresh
  simp only []
  split
  · exact lruPart_kickOutMain_capacity s
  · rfl

theorem lruPart_put_capacity (s : KLruPart) (k v : Nat) :
    (s.put k v).2.capacity = s.capacity := by
  unfold put
  split
  · rfl
  · split
    · rename_i i hi
      simp only []
      split
      · exact lruPart_adjustList_capacity s i
      · rw [lruPart_insertFresh_capacity, lruPart_adjustList_capacity]
    · exact lruPart_insertFresh_capacity s k v

theorem lruPart_get_capacity (s : KLruPart) (k : Nat) :
    (s.get k).2.2.2.capacity = s.capacity := by
  unfold get
  split
  · rename_i i hi
    simp only []
    split
    · exact lruPart_adjustList_capacity s i
    · exact lruPart_adjustList_capacity s i
  · rfl

theorem lruPart_checkGhost_capacity (s : KLruPart) (k : Nat) :
    (s.checkGhost k).2.capacity = s.capacity := by
  unfold checkGhost
  split <;> rfl

theorem lruPart_checkGhost_miss (s : KLruPart) (k : Nat)
    (h : alookup s.ghostMap k = none) : s.checkGhost k = (false, s) := by
  unfold checkGhost
  rw [h]

theorem lruPart_checkGhost_hit (s : KLruPart) (k : Nat)
    (h : alookup s.ghostMap k ≠ none) : (s.checkGhost k).1 = true := by
  unfold checkGhost
  cases hl : alookup s.ghostMap k with
  | none => exact absurd hl h
  | some i => rfl

theorem lruPart_increase_capacity (s : KLruPart) :
    s.increase.capacity = s.capacity + 1 := rfl

theorem lruPart_decrease_zero (s : KLruPart) (h : s.capacity = 0) :
    s.decrease = (false, s) := by
  unfold decrease
  rw [if_pos h]

theorem lruPart_decrease_pos (s : KLruPart) (h : s.capacity ≠ 0) :
    (s.decrease).1 = true ∧ (s.decrease).2.capacity = s.capacity - 1 := by
  unfold decrease
  rw [if_neg h]
  refine ⟨rfl, ?_⟩
  simp only []
  split
  · show (kickOutMain s).capacity - 1 = s.capacity - 1
    rw [lruPart_kickOutMain_capacity]
  · rfl

end KLruPart

namespace KLfuPart

theorem lfuPart_kickOutGhost_capacity (s : KLfuPart) :
    (kickOutGhost s).capacity = s.capacity := by
  unfold kickOutGhost
  split <;> rfl

theorem lfuPart_kickOutMain_capacity (s : KLfuPart) :
    (kickOutMain s).capacity = s.capacity := by
  unfold kickOutMain
  split
  · rfl
  · split
    · rfl
    · simp only []
      split
      · exact lfuPart_kickOutGhost_capacity _
      · rfl

theorem lfuPart_adjustList_capacity (s : KLfuPart) (i : Nat) :
    (adjustList s i).capacity = s.capacity := by
  unfold adjustList
  split
  · rfl
  · simp only []
    split <;> rfl

theorem lfuPart_putInternal_capacity (s : KLfuPart) (k v : Nat) :
    (putInternal s k v).capacity = s.capacity := by
  unfold putInternal
  simp only []
  split
  · exact lfuPart_kickOutMain_capacity s
  · rfl

theorem lfuPart_put_capacity (s : KLfuPart) (k v : Nat) :
    (s.put k v).capacity = s.capacity := by
  unfold put
  split
  · rfl
  · split
    · exact lfuPart_adjustList_capacity _ _
    · exact lfuPart_putInternal_capacity s k v

theorem lfuPart_get_capacity (s : KLfuPart) (k : Nat) :
    (s.get k).2.2.capacity = s.capacity := by
  unfold get
  split
  · split
    · exact lfuPart_adjustList_capacity s _
    · rfl
  · rfl

theorem lfuPart_checkGhost_capacity (s : KLfuPart) (k : Nat) :
    (s.checkGhost k).2.capacity = s.capacity := by
  unfold checkGhost
  split <;> rfl

theorem lfuPart_checkGhost_miss (s : KLfuPart) (k : Nat)
    (h : alookup s.ghostMap k = none) : s.checkGhost k = (false, s) := by
  unfold checkGhost
  rw [h]

theorem lfuPart_checkGhost_hit (s : KLfuPart) (k : Nat)
    (h : alookup s.ghostMap k ≠ none) : (s.checkGhost k).1 = true := by
  unfold checkGhost
  cases hl : alookup s.ghostMap k with
  | none => exact absurd hl h
  | some i => rfl

theorem lfuPart_increase_capacity (s : KLfuPart) :
    s.increase.capacity = s.capacity + 1 := rfl

theorem lfuPart_decrease_zero (s : KLfuPart) (h : s.capacity = 0) :
    s.decrease = (false, s) := by
  unfold decrease
  rw [if_pos h]

theorem lfuPart_decrease_pos (s : KLfuPart) (h : s.capacity ≠ 0) :
    (s.decrease).1 = true ∧ (s.decrease).2.capacity = s.capacity - 1 := by
  unfold decrease
  rw [if_neg h]
  refine ⟨rfl, ?_⟩
  simp only []
  split
  · show (kickOutMain s).capacity - 1 = s.capacity - 1
    rw [lfuPart_kickOutMain_capacity]
  · rfl

end KLfuPart

theorem KLruPart.lruPart_checkGhost_hit_eq (s : KLruPart) (k i : Nat)
    (h : alookup s.ghostMap k = some i) :
    s.checkGhost k = (true, { s with ghost := eraseById s.ghost i,
                                     ghostMap := aerase s.ghostMap k }) := by
  unfold KLruPart.checkGhost
  rw [h]

theorem KLfuPart.lfuPart_checkGhost_hit_eq (s : KLfuPart) (k i : Nat)
    (h : alookup s.ghostMap k = some i) :
    s.checkGhost k = (true, { s with ghost := eraseFNodeById s.ghost i,
                                     ghostMap := aerase s.ghostMap k }) := by
  unfold KLfuPart.checkGhost
  rw [h]

/-- Capacity effect of KArcCache::checkGhost in its three cases: LRU-ghost
hit, LFU-ghost hit (with the LRU ghost missing the key), and double miss. -/
theorem arc_checkGhost_caps (a : KArcCache) (k : Nat) :
    (∀ i, alookup a.lru.ghostMap k = some i →
      (a.lfu.capacity = 0 →
        (a.checkGhost k).2.lru.capacity = a.lru.capacity ∧
          (a.checkGhost k).2.lfu.capacity = a.lfu.capacity) ∧
      (a.lfu.capacity ≠ 0 →
        (a.checkGhost k).2.lru.capacity = a.lru.capacity + 1 ∧
          (a.checkGhost k).2.lfu.capacity = a.lfu.capacity - 1)) ∧
    (∀ i, alookup a.lru.ghostMap k = none →
      alookup a.lfu.ghostMap k = some i →
      (a.lru.capacity = 0 →
        (a.checkGhost k).2.lru.capacity = a.lru.capacity ∧
          (a.checkGhost k).2.lfu.capacity = a.lfu.capacity) ∧
      (a.lru.capacity ≠ 0 →
        (a.checkGhost k).2.lfu.capacity = a.lfu.capacity + 1 ∧
          (a.checkGhost k).2.lru.capacity = a.lru.capacity - 1)) ∧
    (alookup a.lru.ghostMap k = none → alookup a.lfu.ghostMap k = none →
      (a.checkGhost k).2 = a) := by
  refine ⟨?_, ?_, ?_⟩
  · intro i h1
    have hred : a.checkGhost k = (true,
        { a with lru := if (a.lfu.decrease).1 then
                          (a.lru.checkGhost k).2.increase
                        else (a.lru.checkGhost k).2,
                 lfu := (a.lfu.decrease).2 }) := by
      unfold KArcCache.checkGhost
      rw [KLruPart.lruPart_checkGhost_hit_eq a.lru k i h1]
      rfl
    constructor
    · intro hz
      rw [hred, KLfuPart.lfuPart_decrease_zero a.lfu hz]
      exact ⟨KLruPart.lruPart_checkGhost_capacity a.lru k, rfl⟩
    · intro hnz
      have hdec := KLfuPart.lfuPart_decrease_pos a.lfu hnz
      rw [hred]
      simp only [hdec.1, if_true]
      refine ⟨?_, hdec.2⟩
      show (a.lru.checkGhost k).2.increase.capacity = a.lru.capacity + 1
      rw [KLruPart.lruPart_increase_capacity, KLruPart.lruPart_checkGhost_capacity]
  · intro i h1 h2
    have hred : a.checkGhost k = (true,
        { a with lru := (a.lru.decrease).2,
                 lfu := if (a.lru.decrease).1 then
                          (a.lfu.checkGhost k).2.increase
                        else (a.lfu.checkGhost k).2 }) := by
      unfold KArcCache.checkGhost
      rw [KLruPart.lruPart_checkGhost_miss a.lru k h1,
        KLfuPart.lfuPart_checkGhost_hit_eq a.lfu k i h2]
      rfl
    constructor
    · intro hz
      rw [hred, KLruPart.lruPart_decrease_zero a.lru hz]
      exact ⟨rfl, KLfuPart.lfuPart_checkGhost_capacity a.lfu k⟩
    · intro hnz
      have hdec := KLruPart.lruPart_decrease_pos a.lru hnz
      rw [hred]
      simp only [hdec.1, if_true]
      refine ⟨?_, hdec.2⟩
      show (a.lfu.checkGhost k).2.increase.capacity = a.lfu.capacity + 1
      rw [KLfuPart.lfuPart_increase_capacity, KLfuPart.lfuPart_checkGhost_capacity]
  · intro h1 h2
    unfold KArcCache.checkGhost
    rw [KLruPart.lruPart_checkGhost_miss a.lru k h1,
      KLfuPart.lfuPart_checkGhost_miss a.lfu k h2]
    rfl

/-- C6: the KLruPart constructor does fix the ghost capacity at the half
initial capacity, but the KLfuPart constructor writes neither
ghostCapacity_ nor minFreq_ — the model must carry their indeterminate
initial values as extra parameters, and they come out of the constructor
unchanged instead of equal to the capacity. -/
theorem arc_ghost_capacity_initialization :
    (∀ (c : Nat) (t : Int), (KLruPart.init c t).ghostCapacity = c) ∧
      (∀ (c t : Nat) (mf : Int) (g : Nat),
        (KLfuPart.init c t mf g).ghostCapacity = g ∧
          (KLfuPart.init c t mf g).minFreq = mf) :=
  ⟨fun _ _ => rfl, fun _ _ _ _ => ⟨rfl, rfl⟩⟩

/-- Sum of the two half capacities. -/
def capSum (a : KArcCache) : Nat := a.lru.capacity + a.lfu.capacity

theorem arc_checkGhost_capSum (a : KArcCache) (k : Nat) :
    capSum (a.checkGhost k).2 = capSum a := by
  have h := arc_checkGhost_caps a k
  cases h1 : alookup a.lru.ghostMap k with
  | some i =>
      have hc := h.1 i h1
      by_cases hz : a.lfu.capacity = 0
      · have h2 := hc.1 hz
        unfold capSum
        omega
      · have h2 := hc.2 hz
        have hp := Nat.pos_of_ne_zero hz
        unfold capSum
        omega
  | none =>
      cases h2 : alookup a.lfu.ghostMap k with
      | some i =>
          have hc := h.2.1 i h1 h2
          by_cases hz : a.lru.capacity = 0
          · have h3 := hc.1 hz
            unfold capSum
            omega
          · have h3 := hc.2 hz
            have hp := Nat.pos_of_ne_zero hz
            unfold capSum
            omega
      | none => rw [h.2.2 h1 h2]

theorem arc_put_caps (a : KArcCache) (k v : Nat) :
    (a.put k v).lru.capacity = (a.checkGhost k).2.lru.capacity ∧
      (a.put k v).lfu.capacity = (a.checkGhost k).2.lfu.capacity := by
  unfold KArcCache.put
  simp only []
  split
  · exact ⟨KLruPart.lruPart_put_capacity _ k v, rfl⟩
  · split
    · exact ⟨KLruPart.lruPart_put_capacity _ k v, KLfuPart.lfuPart_put_capacity _ k v⟩
    · exact ⟨KLruPart.lruPart_put_capacity _ k v, rfl⟩

theorem arc_get_caps (a : KArcCache) (k : Nat) :
    ((a.get k).2.2).lru.capacity = (a.checkGhost k).2.lru.capacity ∧
      ((a.get k).2.2).lfu.capacity = (a.checkGhost k).2.lfu.capacity := by
  unfold KArcCache.get
  simp only []
  split
  · split
    · exact ⟨KLruPart.lruPart_get_capacity _ k, KLfuPart.lfuPart_put_capacity _ k _⟩
    · exact ⟨KLruPart.lruPart_get_capacity _ k, rfl⟩
  · exact ⟨KLruPart.lruPart_get_capacity _ k, KLfuPart.lfuPart_get_capacity _ k⟩

theorem arc_put_capSum (a : KArcCache) (k v : Nat) :
    capSum (a.put k v) = capSum a := by
  have h := arc_put_caps a k v
  have h2 := arc_checkGhost_capSum a k
  unfold capSum at h2 ⊢
  rw [h.1, h.2]
  exact h2

theorem arc_get_capSum (a : KArcCache) (k : Nat) :
    capSum ((a.get k).2.2) = capSum a := by
  have h := arc_get_caps a k
  have h2 := arc_checkGhost_capSum a k
  unfold capSum at h2 ⊢
  rw [h.1, h.2]
  exact h2

theorem runArc_capSum : ∀ (ops : List ArcOp) (a : KArcCache),
    capSum (runArc ops a) = capSum a := by
  intro ops
  induction ops with
  | nil => intro a; rfl
  | cons op rest ih =>
      intro a
      show capSum (runArc rest _) = _
      rw [ih]
      cases op with
      | put k v => exact arc_put_capSum a k v
      | get k => exact arc_get_capSum a k

/-- C1 counterexample: a KArcCache built with total capacity 4 gives each
half the full capacity 4 — not an even split — and after a put the halves
sum to 8, not to the total 4. -/
theorem arc_capacity_not_total :
    (KArcCache.init 4 2 0 0).lru.capacity = 4 ∧
      (KArcCache.init 4 2 0 0).lfu.capacity = 4 ∧
      capSum ((KArcCache.init 4 2 0 0).put 1 10) = 8 ∧
      ¬ capSum ((KArcCache.init 4 2 0 0).put 1 10) = 4 := by
  decide

/-- C1 (amended): each half of a KArcCache of total capacity C is
constructed with the full capacity C, and after every sequence of public
put and get operations the capacities of the two halves sum to 2·C — the
sum is conserved, but it is twice the configured total, not the total.
The two trailing parameters of the constructor are the indeterminate
initial values of the LFU half (see KLfuPart.init); the statement holds
for every choice of them. -/
theorem arc_capacity_sum_after_ops (C T : Nat) (minFreq0 : Int)
    (ghostCapacity0 : Nat) (ops : List ArcOp) :
    capSum (runArc ops (KArcCache.init C T minFreq0 ghostCapacity0))
      = 2 * C := by
  rw [runArc_capSum]
  show C + C = 2 * C
  omega

/-- C2: on a KLruPart with capacity 4 and transformTime 2, three puts of
the same key leave one entry in the key map but two linked nodes in the
live list: the third put falls through to the insert path although the key
is present, because its bumped time (3) differs from transformTime. -/
theorem lru_part_put_duplicate_node :
    ((((((KLruPart.init 4 2).put 7 10).2).put 7 20).2).put 7 30).2.liveMap.length
        = 1 ∧
      ((((((KLruPart.init 4 2).put 7 10).2).put 7 20).2).put 7
        30).2.live.length = 2 := by
  decide

/-- C3: KArcCache with capacity 4 and transformTime 2.  After put(7,10)
and put(7,20), the time of key 7 reached 2 and the pair was copied into
the LFU half with the new value 20 — but the LRU node still stores the old
value 10, because KLruPart::put never overwrites the value of a present
key.  The subsequent get(7) hits in the LRU half first and returns 10, not
20. -/
theorem arc_promotion_value_trace :
    (((KArcCache.init 4 2 0 0).put 7 10).put 7 20).lru.live.map
        (fun n => (n.key, n.value, n.time)) = [(7, 10, 2)] ∧
      (((KArcCache.init 4 2 0 0).put 7 10).put 7 20).lfu.store.map
        (fun n => (n.key, n.value, n.freq)) = [(7, 20, 1)] ∧
      ((((KArcCache.init 4 2 0 0).put 7 10).put 7 20).get 7).1 = true ∧
      ((((KArcCache.init 4 2 0 0).put 7 10).put 7 20).get 7).2.1 = 10 ∧
      ¬ ((((KArcCache.init 4 2 0 0).put 7 10).put 7 20).get 7).2.1
          = 20 := by
  decide

/-- C8: a put or get for a key found in the LRU-part ghost list grows the
LRU-part capacity by one and shrinks the LFU-part capacity by one, except
when the LFU-part capacity is already 0, in which case the shrink is
refused and both capacities stay put; symmetrically for a key found in the
LFU-part ghost list (the LRU ghost is consulted first). -/
theorem arc_ghost_adaptation (a : KArcCache) (k v : Nat) :
    (∀ i, alookup a.lru.ghostMap k = some i →
      (a.lfu.capacity = 0 →
        (a.put k v).lru.capacity = a.lru.capacity ∧
          (a.put k v).lfu.capacity = a.lfu.capacity ∧
          ((a.get k).2.2).lru.capacity = a.lru.capacity ∧
          ((a.get k).2.2).lfu.capacity = a.lfu.capacity) ∧
      (a.lfu.capacity ≠ 0 →
        (a.put k v).lru.capacity = a.lru.capacity + 1 ∧
          (a.put k v).lfu.capacity = a.lfu.capacity - 1 ∧
          ((a.get k).2.2).lru.capacity = a.lru.capacity + 1 ∧
          ((a.get k).2.2).lfu.capacity = a.lfu.capacity - 1)) ∧
      (∀ i, alookup a.lru.ghostMap k = none →
        alookup a.lfu.ghostMap k = some i →
        (a.lru.capacity = 0 →
          (a.put k v).lru.capacity = a.lru.capacity ∧
            (a.put k v).lfu.capacity = a.lfu.capacity ∧
            ((a.get k).2.2).lru.capacity = a.lru.capacity ∧
            ((a.get k).2.2).lfu.capacity = a.lfu.capacity) ∧
        (a.lru.capacity ≠ 0 →
          (a.put k v).lfu.capacity = a.lfu.capacity + 1 ∧
            (a.put k v).lru.capacity = a.lru.capacity - 1 ∧
            ((a.get k).2.2).lfu.capacity = a.lfu.capacity + 1 ∧
            ((a.get k).2.2).lru.capacity = a.lru.capacity - 1)) := by
  have hp := arc_put_caps a k v
  have hg := arc_get_caps a k
  have hc := arc_checkGhost_caps a k
  constructor
  · intro i h1
    have hc1 := hc.1 i h1
    constructor
    · intro hz
      have h2 := hc1.1 hz
      exact ⟨hp.1.trans h2.1, hp.2.trans h2.2, hg.1.trans h2.1,
        hg.2.trans h2.2⟩
    · intro hnz
      have h2 := hc1.2 hnz
      exact ⟨hp.1.trans h2.1, hp.2.trans h2.2, hg.1.trans h2.1,
        hg.2.trans h2.2⟩
  · intro i h1 h2
    have hc2 := hc.2.1 i h1 h2
    constructor
    · intro hz
      have h3 := hc2.1 hz
      exact ⟨hp.1.trans h3.1, hp.2.trans h3.2, hg.1.trans h3.1,
        hg.2.trans h3.2⟩
    · intro hnz
      have h3 := hc2.2 hnz
      exact ⟨hp.2.trans h3.1, hp.1.trans h3.2, hg.2.trans h3.1,
        hg.1.trans h3.2⟩

/-- C8 witness: with key 5 in the LRU-part ghost and LFU capacity 2, a put
of key 5 moves the capacities from (2, 2) to (3, 1). -/
theorem arc_ghost_adaptation_witness :
    (KArcCache.put
      { capacity := 2, transformTime := 2,
        lru := { capacity := 2, ghostCapacity := 2, transformTime := 2,
                 live := [], liveMap := [],
                 ghost := [{ id := 0, key := 5, value := 50, time := 1 }],
                 ghostMap := [(5, 0)], nextId := 1 },
        lfu := KLfuPart.init 2 2 127 2 } 5 55).lru.capacity = 3 ∧
      (KArcCache.put
        { capacity := 2, transformTime := 2,
          lru := { capacity := 2, ghostCapacity := 2, transformTime := 2,
                   live := [], liveMap := [],
                   ghost := [{ id := 0, key := 5, value := 50, time := 1 }],
                   ghostMap := [(5, 0)], nextId := 1 },
          lfu := KLfuPart.init 2 2 127 2 } 5 55).lfu.capacity = 1 := by
  have h := (arc_ghost_adaptation
    { capacity := 2, transformTime := 2,
      lru := { capacity := 2, ghostCapacity := 2, transformTime := 2,
               live := [], liveMap := [],
               ghost := [{ id := 0, key := 5, value := 50, time := 1 }],
               ghostMap := [(5, 0)], nextId := 1 },
      lfu := KLfuPart.init 2 2 127 2 } 5 55).1 0 (by decide)
  have h2 := h.2 (by decide)
  exact ⟨h2.1, h2.2.1⟩

end KamaCacheSpec
